import Mathlib

/-!
# simple_threads.c: a verification development

A shallow embedding of `src/simple_threads.c`: the worker `work_on_tally`, the
driver `main`, the two shared variables `next_ID` and `tally`, the two mutexes
`mID` and `mtally`, and the interleaving semantics of the threads.

Machine integers are modelled at their C widths: `unsigned int` is a natural
number below `2^32`, `int` is an integer in `[-2^31, 2^31)`.  The conversions
and the arithmetic wrap modulo `2^32` (the result of the usual targets for the
implementation-defined conversion and for signed overflow).

The program has one compile-time constant, `NTHREADS`; the embedding takes it
as the parameter `N`, with `NTHREADS = 15` the value of the source.
-/

namespace SimpleThreads

/-! ## Machine arithmetic -/

/-- The constant `NTHREADS` of the source (line 18). -/
def NTHREADS : Nat := 15

/-- Two to the thirty-second power, the modulus of `unsigned int`. -/
def U32 : Nat := 4294967296

/-- Two to the thirty-first power, the first value not representable in `int`. -/
def I31 : Nat := 2147483648

/-- Conversion of an `unsigned int` value to `int`: the value itself when it is
below `2^31`, the value minus `2^32` otherwise. -/
def toInt32 (n : Nat) : Int :=
  if n % U32 < I31 then ((n % U32 : Nat) : Int) else ((n % U32 : Nat) : Int) - (U32 : Int)

/-- Conversion of an `int` value to `unsigned int`: reduction modulo `2^32`. -/
def toUInt32 (z : Int) : Nat := (z % (U32 : Int)).toNat

/-- An integer result brought back into the range of `int`. -/
def wrapInt (z : Int) : Int := toInt32 (toUInt32 z)

/-- The macro `square(a) a*a` (line 20) applied to the `int` variable `ID`:
the expansion is `ID*ID`, computed in `int`. -/
def square (ID : Int) : Int := wrapInt (ID * ID)

/-! ## The shared variables and the two critical sections -/

/-- The two shared variables of the program (lines 22 and 23). -/
structure Shared where
  tally : Nat
  next_ID : Nat
deriving DecidableEq

/-- Line 37, `int ID = next_ID;`: the value the local receives. -/
def readID (next_ID : Nat) : Int := toInt32 next_ID

/-- Line 38, `next_ID++;` on an `unsigned int`. -/
def incID (next_ID : Nat) : Nat := (next_ID + 1) % U32

/-- Line 50, `tally += squared;`: `squared` is converted to `unsigned int` and
the sum is reduced modulo `2^32`. -/
def addTally (tally : Nat) (squared : Int) : Nat := (tally + toUInt32 squared) % U32

/-- The critical section under `mID` (lines 37 and 38) run as one operation:
the value of the local `ID` and the shared variables afterwards. -/
def claim (g : Shared) : Int × Shared :=
  (readID g.next_ID, { g with next_ID := incID g.next_ID })

/-- The critical section under `mtally` (line 50) run as one operation. -/
def add (squared : Int) (g : Shared) : Shared :=
  { g with tally := addTally g.tally squared }

/-- Successive runs of `claim`: the values returned, in order, and the shared
variables afterwards. -/
def claimMany : Nat → Shared → List Int × Shared
  | 0, g => ([], g)
  | M + 1, g =>
    let r := claim g
    let rest := claimMany M r.2
    (r.1 :: rest.1, rest.2)

/-- Successive runs of `add`, one for each value of the list, in list order. -/
def addMany (vs : List Int) (g : Shared) : Shared :=
  vs.foldl (fun acc v => add v acc) g

/-! ## Rendering of the two format strings -/

/-- The decimal digits of a natural number, most significant first; `fuel`
bounds the number of digits produced. -/
def digitsAux : Nat → Nat → List Char → List Char
  | 0, _, acc => acc
  | fuel + 1, n, acc =>
    let acc1 := Char.ofNat (48 + n % 10) :: acc
    if n / 10 = 0 then acc1 else digitsAux fuel (n / 10) acc1

/-- The characters `printf` produces for `%d` without a field width. -/
def fmtD (z : Int) : List Char :=
  if z < 0 then Char.ofNat 45 :: digitsAux (z.natAbs + 1) z.natAbs []
  else digitsAux (z.natAbs + 1) z.natAbs []

/-- The characters `printf` produces for `%2d`: the rendering of `%d`,
preceded by spaces while it is shorter than two characters. -/
def fmtD2 (z : Int) : List Char :=
  List.replicate (2 - (fmtD z).length) (Char.ofNat 32) ++ fmtD z

/-- The line of `printf("%2d^2 = %2d\n", a, b)` (line 43). -/
def squareLine (a b : Int) : String :=
  String.mk (fmtD2 a ++ "^2 = ".toList ++ fmtD2 b ++ [Char.ofNat 10])

/-- The line of `printf("Total tally: %d\n", tally)` (line 116): the
`unsigned int` argument is read by `%d` as an `int`. -/
def totalLine (tally : Nat) : String :=
  String.mk ("Total tally: ".toList ++ fmtD (toInt32 tally) ++ [Char.ofNat 10])

/-! ## Threads and states -/

/-- Program points of `work_on_tally`, named by source line: a worker at `Lk`
is about to execute the statement of line `k`; `done` is a worker that has
returned. -/
inductive WPC
  | L36 | L37 | L38 | L40 | L42 | L43 | L47 | L50 | L53 | L56 | done
deriving DecidableEq

/-- The position of a program point in `work_on_tally`. -/
def WPC.idx : WPC → Nat
  | .L36 => 0 | .L37 => 1 | .L38 => 2 | .L40 => 3 | .L42 => 4 | .L43 => 5
  | .L47 => 6 | .L50 => 7 | .L53 => 8 | .L56 => 9 | .done => 10

/-- A worker thread: its program point and its two locals.  A local that has
not been assigned yet holds `0`; it is never read before its assignment. -/
structure Worker where
  pc : WPC
  ID : Int
  squared : Int
deriving DecidableEq

/-- A `pthread_mutex_t`: not yet initialised, free, held by the worker of the
given index, or destroyed. -/
inductive Mutex
  | uninit | free | held (t : Nat) | destroyed
deriving DecidableEq

/-- Program points of `main`, named by source line; the two loops carry the
value of their counter `i`. -/
inductive MPC
  | L70 | L72 | L73 | L86 (i : Nat) | L101 (i : Nat) | L112 | L113 | L116 | L117 | exited
deriving DecidableEq

/-- Thread identities: the driver and the workers, by creation index. -/
inductive Tid
  | main | worker (i : Nat)
deriving DecidableEq

/-- The library calls and assignments `main` performs, as recorded in the log
of a state. -/
inductive MainEvent
  | assignNextID (v : Nat)
  | initTally | initID
  | create (i : Nat)
  | join (i : Nat)
  | destroyTally | destroyID
  | printTotal (line : String)
  | ret
deriving DecidableEq

/-- A state of the running program: the shared variables, the two mutexes, the
program point of `main`, the workers created so far (worker `i` is the thread
whose handle is `threads[i]`), the lines written to standard output with the
thread that wrote each, and the log of what `main` has done. -/
structure State where
  next_ID : Nat
  tally : Nat
  mtally : Mutex
  mID : Mutex
  mainpc : MPC
  threads : List Worker
  out : List (Tid × String)
  mlog : List MainEvent
deriving DecidableEq

/-- The state at program start: globals are zero-initialised, no thread
exists, nothing is printed. -/
def init : State :=
  { next_ID := 0, tally := 0, mtally := .uninit, mID := .uninit, mainpc := .L70,
    threads := [], out := [], mlog := [] }

/-- A freshly created worker, at the entry of `work_on_tally`. -/
def newWorker : Worker := { pc := .L36, ID := 0, squared := 0 }

/-- One step of worker `i` (lines 36 to 56).  `pthread_mutex_lock` is enabled
only when the mutex is free; a worker that has returned has no step. -/
def work_on_tally (s : State) (i : Nat) : Option State :=
  match s.threads[i]? with
  | none => none
  | some w =>
    match w.pc with
    | .L36 =>
      if s.mID = .free then
        some { s with mID := .held i, threads := s.threads.set i { w with pc := .L37 } }
      else none
    | .L37 =>
      some { s with threads := s.threads.set i { w with pc := .L38, ID := readID s.next_ID } }
    | .L38 =>
      some { s with next_ID := incID s.next_ID,
                    threads := s.threads.set i { w with pc := .L40 } }
    | .L40 =>
      some { s with mID := .free, threads := s.threads.set i { w with pc := .L42 } }
    | .L42 =>
      some { s with threads := s.threads.set i { w with pc := .L43, squared := square w.ID } }
    | .L43 =>
      some { s with out := s.out ++ [(Tid.worker i, squareLine w.ID (square w.ID))],
                    threads := s.threads.set i { w with pc := .L47 } }
    | .L47 =>
      if s.mtally = .free then
        some { s with mtally := .held i, threads := s.threads.set i { w with pc := .L50 } }
      else none
    | .L50 =>
      some { s with tally := addTally s.tally w.squared,
                    threads := s.threads.set i { w with pc := .L53 } }
    | .L53 =>
      some { s with mtally := .free, threads := s.threads.set i { w with pc := .L56 } }
    | .L56 =>
      some { s with threads := s.threads.set i { w with pc := .done } }
    | .done => none

/-- One step of `main` (lines 70 to 117) for `NTHREADS = N`.  `pthread_join`
on thread `i` is enabled only when that worker has returned.  A step of a loop
is its test together with its body and the increment of `i`; the counter `i` is
kept as a natural number, which for `N < 2^31` is its value as an `int`. -/
def main (N : Nat) (s : State) : Option State :=
  match s.mainpc with
  | .L70 =>
    some { s with next_ID := 1, mainpc := .L72, mlog := s.mlog ++ [.assignNextID 1] }
  | .L72 =>
    some { s with mtally := .free, mainpc := .L73, mlog := s.mlog ++ [.initTally] }
  | .L73 =>
    some { s with mID := .free, mainpc := .L86 0, mlog := s.mlog ++ [.initID] }
  | .L86 i =>
    if i < N then
      some { s with threads := s.threads ++ [newWorker], mainpc := .L86 (i + 1),
                    mlog := s.mlog ++ [.create i] }
    else some { s with mainpc := .L101 0 }
  | .L101 i =>
    if i < N then
      match s.threads[i]? with
      | some w =>
        if w.pc = .done then
          some { s with mainpc := .L101 (i + 1), mlog := s.mlog ++ [.join i] }
        else none
      | none => none
    else some { s with mainpc := .L112 }
  | .L112 =>
    some { s with mtally := .destroyed, mainpc := .L113, mlog := s.mlog ++ [.destroyTally] }
  | .L113 =>
    some { s with mID := .destroyed, mainpc := .L116, mlog := s.mlog ++ [.destroyID] }
  | .L116 =>
    some { s with out := s.out ++ [(Tid.main, totalLine s.tally)], mainpc := .L117,
                  mlog := s.mlog ++ [.printTotal (totalLine s.tally)] }
  | .L117 =>
    some { s with mainpc := .exited, mlog := s.mlog ++ [.ret] }
  | .exited => none

/-- One step of the thread `t`. -/
def step (N : Nat) (t : Tid) (s : State) : Option State :=
  match t with
  | .main => main N s
  | .worker i => work_on_tally s i

/-- The run of a schedule: the threads of the list take one step each, in list
order; the run fails when a scheduled thread has no enabled step. -/
def run (N : Nat) : List Tid → State → Option State
  | [], s => some s
  | t :: ts, s =>
    match step N t s with
    | some s1 => run N ts s1
    | none => none

/-- The states the program can be in: those some schedule reaches from the
initial state. -/
inductive Reachable (N : Nat) : State → Prop
  | start : Reachable N init
  | next (t : Tid) (s s1 : State) : Reachable N s → step N t s = some s1 → Reachable N s1

/-- The schedule in which every worker runs to completion as soon as it is
created: the sequential execution of the program. -/
def seqSchedule (N : Nat) : List Tid :=
  [Tid.main, Tid.main, Tid.main]
    ++ (List.range N).flatMap (fun i => Tid.main :: List.replicate 10 (Tid.worker i))
    ++ [Tid.main]
    ++ List.replicate N Tid.main
    ++ [Tid.main, Tid.main, Tid.main, Tid.main, Tid.main]

/-- The state a schedule leads to from the initial state (the initial state
itself when the schedule cannot be run). -/
def stateAfter (N : Nat) (sched : List Tid) : State := (run N sched init).getD init

/-- The sum `1*1 + 2*2 + ... + N*N`. -/
def sumSquares : Nat → Nat
  | 0 => 0
  | n + 1 => sumSquares n + (n + 1) * (n + 1)

/-! ## Quantities of a state used by the invariants -/

/-- Whether `main` is in its creation loop or in its join loop: the only
program points of `main` at which a worker can be running. -/
def MPC.running : MPC → Bool
  | .L86 _ => true
  | .L101 _ => true
  | _ => false

/-- The number of workers `main` has created when it is at a program point. -/
def created (N : Nat) : MPC → Nat
  | .L70 => 0
  | .L72 => 0
  | .L73 => 0
  | .L86 i => i
  | _ => N

/-- The number of workers that have executed `next_ID++` (line 38). -/
def claimedCount (l : List Worker) : Nat :=
  (l.map (fun w => if 3 ≤ w.pc.idx then 1 else 0)).sum

/-- The number of workers that have executed line 38 and hold `v` in `ID`. -/
def idCount (v : Int) (l : List Worker) : Nat :=
  (l.map (fun w => if 3 ≤ w.pc.idx ∧ w.ID = v then 1 else 0)).sum

/-- The sum of `square(ID)` over the workers that have executed line 38. -/
def claimedSquares (l : List Worker) : Int :=
  (l.map (fun w => if 3 ≤ w.pc.idx then square w.ID else 0)).sum

/-- The sum of `squared` over the workers that have executed line 50. -/
def addedSum (l : List Worker) : Int :=
  (l.map (fun w => if 8 ≤ w.pc.idx then w.squared else 0)).sum

/-- One when worker `i` exists and has executed its `printf` (line 43), zero
otherwise. -/
def printedBy (l : List Worker) (i : Nat) : Nat :=
  match l[i]? with
  | some w => if 6 ≤ w.pc.idx then 1 else 0
  | none => 0

/-- The identifier a worker receives when it reads the counter value `k`. -/
def idOf (k : Nat) : Int := toInt32 k

/-- The steps the created workers still have to take. -/
def workerSteps (l : List Worker) : Nat :=
  (l.map (fun w => 10 - w.pc.idx)).sum

/-- The steps `main` and the workers it has not created yet still have to
take. -/
def mainSteps (N : Nat) : MPC → Nat
  | .L70 => 12 * N + 9
  | .L72 => 12 * N + 8
  | .L73 => 12 * N + 7
  | .L86 i => 11 * (N - i) + N + 6
  | .L101 i => (N - i) + 5
  | .L112 => 4
  | .L113 => 3
  | .L116 => 2
  | .L117 => 1
  | .exited => 0

/-- The number of steps left in any execution from a state. -/
def stepsLeft (N : Nat) (s : State) : Nat :=
  mainSteps N s.mainpc + workerSteps s.threads

/-- The first three actions of `main`. -/
def logInit : List MainEvent := [.assignNextID 1, .initTally, .initID]

/-- The log of `main` when it is at a program point, in program order. -/
def mainLog (N : Nat) (tally : Nat) : MPC → List MainEvent
  | .L70 => []
  | .L72 => [.assignNextID 1]
  | .L73 => [.assignNextID 1, .initTally]
  | .L86 i => logInit ++ (List.range i).map .create
  | .L101 i => logInit ++ (List.range N).map .create ++ (List.range i).map .join
  | .L112 => logInit ++ (List.range N).map .create ++ (List.range N).map .join
  | .L113 => logInit ++ (List.range N).map .create ++ (List.range N).map .join
      ++ [.destroyTally]
  | .L116 => logInit ++ (List.range N).map .create ++ (List.range N).map .join
      ++ [.destroyTally, .destroyID]
  | .L117 => logInit ++ (List.range N).map .create ++ (List.range N).map .join
      ++ [.destroyTally, .destroyID, .printTotal (totalLine tally)]
  | .exited => logInit ++ (List.range N).map .create ++ (List.range N).map .join
      ++ [.destroyTally, .destroyID, .printTotal (totalLine tally), .ret]

/-- A mutex that has been initialised and not destroyed. -/
def Mutex.live : Mutex → Bool
  | .free => true
  | .held _ => true
  | _ => false

/-- The program point and the locals of a worker after its next statement. -/
def advance (next_ID : Nat) (w : Worker) : Worker :=
  match w.pc with
  | .L36 => { w with pc := .L37 }
  | .L37 => { w with pc := .L38, ID := readID next_ID }
  | .L38 => { w with pc := .L40 }
  | .L40 => { w with pc := .L42 }
  | .L42 => { w with pc := .L43, squared := square w.ID }
  | .L43 => { w with pc := .L47 }
  | .L47 => { w with pc := .L50 }
  | .L50 => { w with pc := .L53 }
  | .L53 => { w with pc := .L56 }
  | .L56 => { w with pc := .done }
  | .done => w

/-- Shape invariant: how many workers exist at each program point of `main`,
and which of them have returned. -/
structure ShapeInv (N : Nat) (s : State) : Prop where
  len : s.threads.length = created N s.mainpc
  boundS : ∀ i, s.mainpc = .L86 i → i ≤ N
  boundJ : ∀ i, s.mainpc = .L101 i → i ≤ N
  joined : ∀ i, s.mainpc = .L101 i →
    ∀ (j : Nat) (w : Worker), j < i → s.threads[j]? = some w → w.pc = .done
  idle : s.mainpc.running = false →
    ∀ (j : Nat) (w : Worker), s.threads[j]? = some w → w.pc = .done

/-- Lock invariant: a mutex is held by worker `i` exactly when worker `i` is
inside the critical section of that mutex. -/
structure LockInv (s : State) : Prop where
  live : s.mainpc.running = true → s.mID.live = true ∧ s.mtally.live = true
  live73 : s.mainpc = .L73 → s.mtally.live = true
  lockID : ∀ (i : Nat) (w : Worker), s.threads[i]? = some w →
    ((w.pc = .L37 ∨ w.pc = .L38 ∨ w.pc = .L40) ↔ s.mID = .held i)
  lockT : ∀ (i : Nat) (w : Worker), s.threads[i]? = some w →
    ((w.pc = .L50 ∨ w.pc = .L53) ↔ s.mtally = .held i)
  holderID : ∀ i : Nat, s.mID = .held i → i < s.threads.length
  holderT : ∀ i : Nat, s.mtally = .held i → i < s.threads.length

/-- Data invariant: the counter, the identifiers held by the workers, the
squares and the tally. -/
structure DataInv (s : State) : Prop where
  ctr : s.mainpc ≠ .L70 → s.next_ID = (1 + claimedCount s.threads) % U32
  rd : ∀ (i : Nat) (w : Worker), s.threads[i]? = some w → w.pc = .L38 →
    w.ID = readID s.next_ID
  ids : ∀ v : Int,
    idCount v s.threads = ((List.range' 1 (claimedCount s.threads)).map idOf).count v
  sq : ∀ (i : Nat) (w : Worker), s.threads[i]? = some w → 5 ≤ w.pc.idx →
    w.squared = square w.ID
  csq : claimedSquares s.threads
    = ((List.range' 1 (claimedCount s.threads)).map (fun j => square (idOf j))).sum
  tal : (s.tally : Int) = addedSum s.threads % (U32 : Int)

/-- Output invariant: who has written which line to standard output. -/
structure OutInv (s : State) : Prop where
  outW : ∀ i : Nat, (s.out.map Prod.fst).count (Tid.worker i) = printedBy s.threads i
  outM : s.mainpc ≠ .L117 → s.mainpc ≠ .exited → Tid.main ∉ s.out.map Prod.fst
  outT : s.mainpc = .L117 ∨ s.mainpc = .exited →
    ∃ ws, s.out = ws ++ [(Tid.main, totalLine s.tally)] ∧ Tid.main ∉ ws.map Prod.fst
  outL : ∀ e ∈ s.out, ∀ i : Nat, e.1 = Tid.worker i →
    ∃ w, s.threads[i]? = some w ∧ 6 ≤ w.pc.idx ∧ e.2 = squareLine w.ID (square w.ID)

/-- The invariant of the program: what holds in every reachable state. -/
structure ProgInv (N : Nat) (s : State) : Prop where
  shape : ShapeInv N s
  lock : LockInv s
  data : DataInv s
  outp : OutInv s
  log : s.mlog = mainLog N s.tally s.mainpc

/-! ## Machine arithmetic: basic facts -/

theorem toInt32_of_lt (n : Nat) (h : n < I31) : toInt32 n = (n : Int) := by
  unfold toInt32 U32 I31 at *
  have h1 : n % 4294967296 = n := Nat.mod_eq_of_lt (by omega)
  rw [h1, if_pos h]

theorem toInt32_emod (n : Nat) : toInt32 n % (U32 : Int) = ((n % U32 : Nat) : Int) := by
  unfold toInt32 U32 I31
  split <;> omega

theorem toUInt32_of_nonneg (z : Int) (h0 : 0 ≤ z) (h : z < (U32 : Int)) :
    toUInt32 z = z.toNat := by
  unfold toUInt32 U32 at *
  omega

theorem toUInt32_lt (z : Int) : toUInt32 z < U32 := by
  unfold toUInt32 U32
  omega

theorem toUInt32_cast (z : Int) : ((toUInt32 z : Nat) : Int) = z % (U32 : Int) := by
  unfold toUInt32 U32
  omega

theorem wrapInt_of_range (z : Int) (h0 : 0 ≤ z) (h : z < (I31 : Int)) : wrapInt z = z := by
  unfold wrapInt
  have h1 : toUInt32 z = z.toNat := toUInt32_of_nonneg z h0 (by unfold I31 U32 at *; omega)
  rw [h1, toInt32_of_lt _ (by unfold I31 at *; omega)]
  omega

theorem wrapInt_emod (z : Int) : wrapInt z % (U32 : Int) = z % (U32 : Int) := by
  unfold wrapInt
  rw [toInt32_emod]
  have := toUInt32_lt z
  rw [Nat.mod_eq_of_lt this, toUInt32_cast]

theorem addTally_lt (t : Nat) (z : Int) : addTally t z < U32 := by
  unfold addTally U32
  omega

theorem addTally_cast (t : Nat) (z : Int) :
    ((addTally t z : Nat) : Int) = ((t : Int) + z) % (U32 : Int) := by
  unfold addTally toUInt32 U32
  omega

theorem addTally_exact (t : Nat) (z : Int) (h0 : 0 ≤ z) (h : (t : Int) + z < (U32 : Int)) :
    ((addTally t z : Nat) : Int) = (t : Int) + z := by
  rw [addTally_cast]
  unfold U32 at *
  omega

theorem square_of_nat (k : Nat) (h : k * k < I31) : square (k : Int) = ((k * k : Nat) : Int) := by
  unfold square
  rw [wrapInt_of_range]
  · push_cast; rfl
  · positivity
  · exact_mod_cast h

theorem six_mul_sumSquares (N : Nat) : 6 * sumSquares N = N * (N + 1) * (2 * N + 1) := by
  induction N with
  | zero => rfl
  | succ n ih =>
    unfold sumSquares
    rw [Nat.mul_add, ih]
    ring

theorem sumSquares_closed (N : Nat) : sumSquares N = N * (N + 1) * (2 * N + 1) / 6 := by
  have h := six_mul_sumSquares N
  omega

theorem sq_le_sumSquares (k N : Nat) (h1 : 1 ≤ k) (h2 : k ≤ N) : k * k ≤ sumSquares N := by
  induction N with
  | zero => omega
  | succ n ih =>
    unfold sumSquares
    rcases Nat.lt_or_ge k (n + 1) with h | h
    · have := ih (by omega)
      omega
    · have hk : k = n + 1 := by omega
      subst hk
      omega

theorem sumSquares_mono (a b : Nat) (h : a ≤ b) : sumSquares a ≤ sumSquares b := by
  induction b with
  | zero =>
    have : a = 0 := by omega
    subst this
    exact Nat.le_refl _
  | succ n ih =>
    rcases Nat.lt_or_ge a (n + 1) with h1 | h1
    · have := ih (by omega)
      have h2 : sumSquares (n + 1) = sumSquares n + (n + 1) * (n + 1) := rfl
      omega
    · have : a = n + 1 := by omega
      subst this
      exact Nat.le_refl _

/-! ## The dispenser and the aggregator as sequential operations -/

theorem claimMany_exact (M : Nat) : ∀ (c t : Nat), c + M ≤ I31 →
    claimMany M ⟨t, c⟩ = ((List.range' c M).map Int.ofNat, ⟨t, c + M⟩) := by
  induction M with
  | zero => intro c t _; rfl
  | succ m ih =>
    intro c t h
    have h1 : readID c = (c : Int) := toInt32_of_lt c (by omega)
    have h2 : incID c = c + 1 := by
      unfold incID U32
      unfold I31 at h
      omega
    have h3 := ih (c + 1) t (by omega)
    simp only [claimMany, claim, h1, h2, h3, List.range'_succ, List.map_cons]
    have : c + 1 + m = c + (m + 1) := by omega
    rw [this]
    rfl

theorem addMany_next_ID (vs : List Int) : ∀ g : Shared, (addMany vs g).next_ID = g.next_ID := by
  induction vs with
  | nil => intro g; rfl
  | cons v vs ih =>
    intro g
    have := ih (add v g)
    simpa [addMany, add] using this

theorem addMany_tally_cast (vs : List Int) : ∀ g : Shared, g.tally < U32 →
    (((addMany vs g).tally : Nat) : Int) = ((g.tally : Int) + vs.sum) % (U32 : Int) := by
  induction vs with
  | nil =>
    intro g hg
    simp only [addMany, List.foldl_nil, List.sum_nil, add_zero]
    unfold U32 at *
    omega
  | cons v vs ih =>
    intro g hg
    have h1 := ih (add v g) (addTally_lt _ _)
    have h2 : addMany (v :: vs) g = addMany vs (add v g) := rfl
    rw [h2, h1]
    simp only [add, addTally_cast, List.sum_cons]
    unfold U32
    omega

/-! ## The invariant holds in every reachable state -/

theorem getElem?_set_cases {α : Type} {l : List α} {i j : Nat} {a x : α}
    (h : (l.set i a)[j]? = some x) :
    (j = i ∧ x = a ∧ i < l.length) ∨ (j ≠ i ∧ l[j]? = some x) := by
  rw [List.getElem?_set] at h
  split at h
  · split at h
    · left; simp_all
    · simp at h
  · right; exact ⟨by omega, h⟩

/-- The steps of `main`, one case for each statement. -/
theorem stepMain_cases (N : Nat) (s s1 : State) (h : main N s = some s1) :
    (s.mainpc = .L70 ∧
      s1 = { s with next_ID := 1, mainpc := .L72, mlog := s.mlog ++ [.assignNextID 1] })
    ∨ (s.mainpc = .L72 ∧
      s1 = { s with mtally := .free, mainpc := .L73, mlog := s.mlog ++ [.initTally] })
    ∨ (s.mainpc = .L73 ∧
      s1 = { s with mID := .free, mainpc := .L86 0, mlog := s.mlog ++ [.initID] })
    ∨ (∃ i, s.mainpc = .L86 i ∧ i < N ∧
      s1 = { s with threads := s.threads ++ [newWorker], mainpc := .L86 (i + 1),
                    mlog := s.mlog ++ [.create i] })
    ∨ (∃ i, s.mainpc = .L86 i ∧ ¬ i < N ∧ s1 = { s with mainpc := .L101 0 })
    ∨ (∃ i w, s.mainpc = .L101 i ∧ i < N ∧ s.threads[i]? = some w ∧ w.pc = .done ∧
      s1 = { s with mainpc := .L101 (i + 1), mlog := s.mlog ++ [.join i] })
    ∨ (∃ i, s.mainpc = .L101 i ∧ ¬ i < N ∧ s1 = { s with mainpc := .L112 })
    ∨ (s.mainpc = .L112 ∧
      s1 = { s with mtally := .destroyed, mainpc := .L113,
                    mlog := s.mlog ++ [.destroyTally] })
    ∨ (s.mainpc = .L113 ∧
      s1 = { s with mID := .destroyed, mainpc := .L116, mlog := s.mlog ++ [.destroyID] })
    ∨ (s.mainpc = .L116 ∧
      s1 = { s with out := s.out ++ [(Tid.main, totalLine s.tally)], mainpc := .L117,
                    mlog := s.mlog ++ [.printTotal (totalLine s.tally)] })
    ∨ (s.mainpc = .L117 ∧ s1 = { s with mainpc := .exited, mlog := s.mlog ++ [.ret] }) := by
  cases hpc : s.mainpc with
  | L70 => simp [main, hpc] at h; simp [← h]
  | L72 => simp [main, hpc] at h; simp [← h]
  | L73 => simp [main, hpc] at h; simp [← h]
  | L86 i =>
    by_cases hi : i < N
    · simp [main, hpc, hi] at h; simp [← h, hi]
    · simp [main, hpc, hi] at h; simp [← h]; omega
  | L101 i =>
    by_cases hi : i < N
    · cases hw : s.threads[i]? with
      | none => simp [main, hpc, hi, hw] at h
      | some w =>
        by_cases hd : w.pc = .done
        · simp [main, hpc, hi, hw, hd] at h; simp [← h, hi, hd, hw]
        · simp [main, hpc, hi, hw, hd] at h
    · simp [main, hpc, hi] at h; simp [← h]; omega
  | L112 => simp [main, hpc] at h; simp [← h]
  | L113 => simp [main, hpc] at h; simp [← h]
  | L116 => simp [main, hpc] at h; simp [← h]
  | L117 => simp [main, hpc] at h; simp [← h]
  | exited => simp [main, hpc] at h

/-- The steps of a worker, one case for each statement of `work_on_tally`. -/
theorem stepWorker_cases (s s1 : State) (i : Nat) (h : work_on_tally s i = some s1) :
    ∃ w, s.threads[i]? = some w ∧
    ((w.pc = .L36 ∧ s.mID = .free ∧
        s1 = { s with mID := .held i, threads := s.threads.set i { w with pc := .L37 } })
    ∨ (w.pc = .L37 ∧
        s1 = { s with threads := s.threads.set i { w with pc := .L38, ID := readID s.next_ID } })
    ∨ (w.pc = .L38 ∧
        s1 = { s with next_ID := incID s.next_ID,
                      threads := s.threads.set i { w with pc := .L40 } })
    ∨ (w.pc = .L40 ∧
        s1 = { s with mID := .free, threads := s.threads.set i { w with pc := .L42 } })
    ∨ (w.pc = .L42 ∧
        s1 = { s with threads := s.threads.set i { w with pc := .L43, squared := square w.ID } })
    ∨ (w.pc = .L43 ∧
        s1 = { s with out := s.out ++ [(Tid.worker i, squareLine w.ID (square w.ID))],
                      threads := s.threads.set i { w with pc := .L47 } })
    ∨ (w.pc = .L47 ∧ s.mtally = .free ∧
        s1 = { s with mtally := .held i, threads := s.threads.set i { w with pc := .L50 } })
    ∨ (w.pc = .L50 ∧
        s1 = { s with tally := addTally s.tally w.squared,
                      threads := s.threads.set i { w with pc := .L53 } })
    ∨ (w.pc = .L53 ∧
        s1 = { s with mtally := .free, threads := s.threads.set i { w with pc := .L56 } })
    ∨ (w.pc = .L56 ∧
        s1 = { s with threads := s.threads.set i { w with pc := .done } })) := by
  cases hw : s.threads[i]? with
  | none => simp [work_on_tally, hw] at h
  | some w =>
    refine ⟨w, rfl, ?_⟩
    cases hpc : w.pc with
    | L36 =>
      by_cases hm : s.mID = .free
      · simp [work_on_tally, hw, hpc, hm] at h; simp [← h, hm]
      · simp [work_on_tally, hw, hpc, hm] at h
    | L37 => simp [work_on_tally, hw, hpc] at h; simp [← h]
    | L38 => simp [work_on_tally, hw, hpc] at h; simp [← h]
    | L40 => simp [work_on_tally, hw, hpc] at h; simp [← h]
    | L42 => simp [work_on_tally, hw, hpc] at h; simp [← h]
    | L43 => simp [work_on_tally, hw, hpc] at h; simp [← h]
    | L47 =>
      by_cases hm : s.mtally = .free
      · simp [work_on_tally, hw, hpc, hm] at h; simp [← h, hm]
      · simp [work_on_tally, hw, hpc, hm] at h
    | L50 => simp [work_on_tally, hw, hpc] at h; simp [← h]
    | L53 => simp [work_on_tally, hw, hpc] at h; simp [← h]
    | L56 => simp [work_on_tally, hw, hpc] at h; simp [← h]
    | done => simp [work_on_tally, hw, hpc] at h

theorem shape_stepMain (N : Nat) (s s1 : State) (hI : ShapeInv N s)
    (h : main N s = some s1) : ShapeInv N s1 := by
  obtain ⟨len, boundS, boundJ, joined, idle⟩ := hI
  rcases stepMain_cases N s s1 h with ⟨hpc, rfl⟩ | ⟨hpc, rfl⟩ | ⟨hpc, rfl⟩ | ⟨i, hpc, hi, rfl⟩
    | ⟨i, hpc, hi, rfl⟩ | ⟨i, w, hpc, hi, hw, hd, rfl⟩ | ⟨i, hpc, hi, rfl⟩ | ⟨hpc, rfl⟩
    | ⟨hpc, rfl⟩ | ⟨hpc, rfl⟩ | ⟨hpc, rfl⟩
  all_goals constructor
  all_goals simp_all [created, MPC.running]
  all_goals first
    | omega
    | assumption
    | (intro j x hx
       exact joined j x (by have := (List.getElem?_eq_some.1 hx).1; omega) hx)
    | (intro j x hj hx
       rcases Nat.lt_or_ge j i with hlt | hge
       · exact joined j x hlt hx
       · have hji : j = i := by omega
         subst hji
         rw [List.getElem?_eq_getElem (by omega)] at hx
         simp only [Option.some.injEq] at hx
         rw [← hx, hw]
         exact hd)

theorem shape_stepWorker (N : Nat) (s s1 : State) (i : Nat) (hI : ShapeInv N s)
    (h : work_on_tally s i = some s1) : ShapeInv N s1 := by
  obtain ⟨len, boundS, boundJ, joined, idle⟩ := hI
  obtain ⟨w, hw, hc⟩ := stepWorker_cases s s1 i h
  have hnd : w.pc ≠ .done := by
    rcases hc with hc | hc | hc | hc | hc | hc | hc | hc | hc | hc <;> simp [hc.1]
  have hs : s1.mainpc = s.mainpc ∧ ∃ w1, s1.threads = s.threads.set i w1 := by
    rcases hc with ⟨_, _, rfl⟩ | ⟨_, rfl⟩ | ⟨_, rfl⟩ | ⟨_, rfl⟩ | ⟨_, rfl⟩ | ⟨_, rfl⟩
      | ⟨_, _, rfl⟩ | ⟨_, rfl⟩ | ⟨_, rfl⟩ | ⟨_, rfl⟩ <;> exact ⟨rfl, _, rfl⟩
  obtain ⟨hm, w1, ht⟩ := hs
  have key : ∀ (j : Nat) (x : Worker), s1.threads[j]? = some x →
      (j = i) ∨ s.threads[j]? = some x := by
    intro j x hx
    rw [ht] at hx
    rcases getElem?_set_cases hx with ⟨a, _, _⟩ | ⟨_, b⟩
    · exact Or.inl a
    · exact Or.inr b
  constructor
  · rw [ht, hm, List.length_set]; exact len
  · rw [hm]; exact boundS
  · rw [hm]; exact boundJ
  · rw [hm]
    intro k hk j x hj hx
    rcases key j x hx with rfl | hold
    · exact absurd (joined k hk j w hj hw) hnd
    · exact joined k hk j x hj hold
  · rw [hm]
    intro hr j x hx
    exact absurd (idle hr i w hw) hnd

theorem getElem?_append_one {α : Type} {l : List α} {a x : α} {j : Nat}
    (h : (l ++ [a])[j]? = some x) : (j = l.length ∧ x = a) ∨ (j < l.length ∧ l[j]? = some x) := by
  rcases Nat.lt_or_ge j l.length with hlt | hge
  · rw [List.getElem?_append_left hlt] at h
    exact Or.inr ⟨hlt, h⟩
  · rw [List.getElem?_append_right hge] at h
    have hlen := (List.getElem?_eq_some.1 h).1
    simp only [List.length_singleton] at hlen
    have hj : j = l.length := by omega
    subst hj
    simp at h
    exact Or.inl ⟨rfl, h.symm⟩

theorem lock_stepMain (N : Nat) (s s1 : State) (hS : ShapeInv N s) (hI : LockInv s)
    (h : main N s = some s1) : LockInv s1 := by
  obtain ⟨len, boundS, boundJ, joined, idle⟩ := hS
  obtain ⟨live, live73, lockID, lockT, holderID, holderT⟩ := hI
  rcases stepMain_cases N s s1 h with ⟨hpc, rfl⟩ | ⟨hpc, rfl⟩ | ⟨hpc, rfl⟩ | ⟨i, hpc, hi, rfl⟩
    | ⟨i, hpc, hi, rfl⟩ | ⟨i, w, hpc, hi, hw, hd, rfl⟩ | ⟨i, hpc, hi, rfl⟩ | ⟨hpc, rfl⟩
    | ⟨hpc, rfl⟩ | ⟨hpc, rfl⟩ | ⟨hpc, rfl⟩
  all_goals clear h
  all_goals simp only [hpc, created, MPC.running, List.length_eq_zero, Bool.false_eq_true,
    false_implies, true_implies, reduceCtorEq] at len idle live live73
  all_goals constructor
  all_goals simp only [MPC.running, Mutex.live, reduceCtorEq, false_implies, Bool.false_eq_true,
    and_self, implies_true, true_implies, and_true, true_and, iff_false, not_or]
  all_goals first
    | assumption
    | exact live.1
    | exact live.2
    | (intro j x hx; have hdone := idle j x hx; simp [hdone])
    | (intro j hj; have := holderID j hj; simp only [List.length_append, List.length_singleton]
       omega)
    | (intro j hj; have := holderT j hj; simp only [List.length_append, List.length_singleton]
       omega)
    | (intro j x hx
       rcases getElem?_append_one hx with ⟨rfl, rfl⟩ | ⟨_, hold⟩
       · simp only [newWorker, reduceCtorEq, or_self, false_iff]
         intro hc
         have := holderID _ hc
         omega
       · exact lockID j x hold)
    | (intro j x hx
       rcases getElem?_append_one hx with ⟨rfl, rfl⟩ | ⟨_, hold⟩
       · simp only [newWorker, reduceCtorEq, or_self, false_iff]
         intro hc
         have := holderT _ hc
         omega
       · exact lockT j x hold)

theorem lock_stepWorker (s s1 : State) (i : Nat) (hI : LockInv s)
    (h : work_on_tally s i = some s1) : LockInv s1 := by
  obtain ⟨live, live73, lockID, lockT, holderID, holderT⟩ := hI
  obtain ⟨w, hw, hc⟩ := stepWorker_cases s s1 i h
  have hi : i < s.threads.length := (List.getElem?_eq_some.1 hw).1
  have hIDi := lockID i w hw
  have hTi := lockT i w hw
  rcases hc with ⟨hpc, hm, rfl⟩ | ⟨hpc, rfl⟩ | ⟨hpc, rfl⟩ | ⟨hpc, rfl⟩ | ⟨hpc, rfl⟩ | ⟨hpc, rfl⟩
      | ⟨hpc, hm, rfl⟩ | ⟨hpc, rfl⟩ | ⟨hpc, rfl⟩ | ⟨hpc, rfl⟩
  all_goals clear h
  all_goals simp only [hpc, reduceCtorEq, or_false, false_or, or_true, true_or, or_self,
    false_iff, true_iff] at hIDi hTi
  all_goals constructor
  all_goals first
    | (intro hr; have h2 := live hr
       clear lockID lockT holderID holderT live live73
       simp_all [Mutex.live])
    | (intro hr; have h2 := live73 hr
       clear lockID lockT holderID holderT live live73
       simp_all [Mutex.live])
    | (intro j x hx
       rcases getElem?_set_cases hx with ⟨rfl, rfl, _⟩ | ⟨hne, hold⟩
       · clear lockID lockT holderID holderT live live73
         simp_all
       · have hj := lockID j x hold
         have hj2 := lockT j x hold
         have hne2 : i ≠ j := Ne.symm hne
         clear lockID lockT holderID holderT live live73
         simp_all)
    | (intro j hj
       have h1 := holderID j
       have h2 := holderT j
       clear lockID lockT holderID holderT live live73
       simp_all [List.length_set])

theorem sum_map_set {M : Type} [AddCommMonoid M] (f : Worker → M) :
    ∀ (l : List Worker) (i : Nat) (w w1 : Worker), l[i]? = some w →
      ((l.set i w1).map f).sum + f w = (l.map f).sum + f w1 := by
  intro l
  induction l with
  | nil => intro i w w1 h; simp at h
  | cons a l ih =>
    intro i w w1 h
    cases i with
    | zero =>
      simp only [List.getElem?_cons_zero, Option.some.injEq] at h
      subst h
      simp only [List.set_cons_zero, List.map_cons, List.sum_cons]
      abel
    | succ k =>
      simp only [List.getElem?_cons_succ] at h
      have := ih k w w1 h
      simp only [List.set_cons_succ, List.map_cons, List.sum_cons]
      rw [add_assoc, this, add_assoc]

theorem claimedCount_set (l : List Worker) (i : Nat) (w w1 : Worker) (h : l[i]? = some w) :
    claimedCount (l.set i w1) + (if 3 ≤ w.pc.idx then 1 else 0)
      = claimedCount l + (if 3 ≤ w1.pc.idx then 1 else 0) :=
  sum_map_set _ l i w w1 h

theorem idCount_set (v : Int) (l : List Worker) (i : Nat) (w w1 : Worker) (h : l[i]? = some w) :
    idCount v (l.set i w1) + (if 3 ≤ w.pc.idx ∧ w.ID = v then 1 else 0)
      = idCount v l + (if 3 ≤ w1.pc.idx ∧ w1.ID = v then 1 else 0) :=
  sum_map_set _ l i w w1 h

theorem claimedSquares_set (l : List Worker) (i : Nat) (w w1 : Worker) (h : l[i]? = some w) :
    claimedSquares (l.set i w1) + (if 3 ≤ w.pc.idx then square w.ID else 0)
      = claimedSquares l + (if 3 ≤ w1.pc.idx then square w1.ID else 0) :=
  sum_map_set _ l i w w1 h

theorem addedSum_set (l : List Worker) (i : Nat) (w w1 : Worker) (h : l[i]? = some w) :
    addedSum (l.set i w1) + (if 8 ≤ w.pc.idx then w.squared else 0)
      = addedSum l + (if 8 ≤ w1.pc.idx then w1.squared else 0) :=
  sum_map_set _ l i w w1 h

theorem workerSteps_set (l : List Worker) (i : Nat) (w w1 : Worker) (h : l[i]? = some w) :
    workerSteps (l.set i w1) + (10 - w.pc.idx) = workerSteps l + (10 - w1.pc.idx) :=
  sum_map_set _ l i w w1 h

theorem toInt32_mod (n : Nat) : toInt32 (n % U32) = toInt32 n := by
  unfold toInt32
  rw [Nat.mod_mod]

theorem data_stepWorker (N : Nat) (s s1 : State) (i : Nat) (hS : ShapeInv N s) (hL : LockInv s)
    (hI : DataInv s) (h : work_on_tally s i = some s1) : DataInv s1 := by
  obtain ⟨ctr, rd, ids, sq, csq, tal⟩ := hI
  obtain ⟨w, hw, hc⟩ := stepWorker_cases s s1 i h
  have hne70 : s.mainpc ≠ .L70 := by
    intro h70
    have hlen := hS.len
    rw [h70] at hlen
    have := (List.getElem?_eq_some.1 hw).1
    simp only [created] at hlen
    omega
  have hctr := ctr hne70
  have hrdi := rd i w hw
  have hsqi := sq i w hw
  have hLi := (hL.lockID i w hw)
  have hLock := hL.lockID
  have hcc := claimedCount_set s.threads i w (advance s.next_ID w) hw
  have hid := fun v => idCount_set v s.threads i w (advance s.next_ID w) hw
  have hcs := claimedSquares_set s.threads i w (advance s.next_ID w) hw
  have has := addedSum_set s.threads i w (advance s.next_ID w) hw
  clear hS hL ctr
  rcases hc with ⟨hpc, hm, rfl⟩ | ⟨hpc, rfl⟩ | ⟨hpc, rfl⟩ | ⟨hpc, rfl⟩ | ⟨hpc, rfl⟩ | ⟨hpc, rfl⟩
      | ⟨hpc, hm, rfl⟩ | ⟨hpc, rfl⟩ | ⟨hpc, rfl⟩ | ⟨hpc, rfl⟩
  all_goals clear h
  all_goals simp only [advance, hpc, WPC.idx, Nat.reduceLeDiff, if_true, if_false, false_and,
      true_and, add_zero, reduceCtorEq, true_implies, false_implies, add_left_inj, or_false,
      false_or, or_true, true_or, or_self, false_iff, true_iff]
      at hcc hid hcs has hrdi hsqi hLi
  all_goals constructor
  all_goals simp only [hcc, hid, hcs, has]
  all_goals first
    | assumption
    | (intro _; exact hctr)
    | (intro _
       simp only [incID, hctr, U32]
       omega)
    | (intro j x hx
       rcases getElem?_set_cases hx with ⟨rfl, rfl, _⟩ | ⟨hne, hold⟩
       · simp only [WPC.idx, reduceCtorEq, false_implies, Nat.reduceLeDiff, true_implies, hsqi,
           implies_true]
       · first
          | exact rd j x hold
          | exact sq j x hold
          | (intro hx38
             have h1 := (hLock j x hold).1 (Or.inr (Or.inl hx38))
             rw [hLi] at h1
             simp only [Mutex.held.injEq] at h1
             exact absurd h1.symm hne))
    | (intro v
       have hidOf : idOf (1 + claimedCount s.threads) = w.ID := by
         rw [hrdi, hctr, readID, idOf, toInt32_mod]
       rw [ids v, List.range'_1_concat, List.map_append, List.count_append, List.map_singleton,
         List.count_singleton, hidOf]
       simp only [beq_iff_eq])
    | (have hidOf : idOf (1 + claimedCount s.threads) = w.ID := by
         rw [hrdi, hctr, readID, idOf, toInt32_mod]
       rw [csq, List.range'_1_concat, List.map_append, List.sum_append, List.map_singleton,
         List.sum_singleton, hidOf])
    | (rw [addTally_cast, tal]
       simp only [U32]
       omega)

theorem claimedCount_new (l : List Worker) : claimedCount (l ++ [newWorker]) = claimedCount l := by
  simp [claimedCount, newWorker, WPC.idx]

theorem idCount_new (v : Int) (l : List Worker) : idCount v (l ++ [newWorker]) = idCount v l := by
  simp [idCount, newWorker, WPC.idx]

theorem claimedSquares_new (l : List Worker) :
    claimedSquares (l ++ [newWorker]) = claimedSquares l := by
  simp [claimedSquares, newWorker, WPC.idx]

theorem addedSum_new (l : List Worker) : addedSum (l ++ [newWorker]) = addedSum l := by
  simp [addedSum, newWorker, WPC.idx]

theorem data_stepMain (N : Nat) (s s1 : State) (hS : ShapeInv N s) (hI : DataInv s)
    (h : main N s = some s1) : DataInv s1 := by
  obtain ⟨ctr, rd, ids, sq, csq, tal⟩ := hI
  have hlen := hS.len
  clear hS
  rcases stepMain_cases N s s1 h with ⟨hpc, rfl⟩ | ⟨hpc, rfl⟩ | ⟨hpc, rfl⟩ | ⟨i, hpc, hi, rfl⟩
    | ⟨i, hpc, hi, rfl⟩ | ⟨i, w, hpc, hi, hw, hd, rfl⟩ | ⟨i, hpc, hi, rfl⟩ | ⟨hpc, rfl⟩
    | ⟨hpc, rfl⟩ | ⟨hpc, rfl⟩ | ⟨hpc, rfl⟩
  all_goals clear h
  all_goals simp only [hpc, created, List.length_eq_zero, ne_eq, reduceCtorEq, not_false_eq_true,
    true_implies, not_true_eq_false, false_implies] at hlen ctr
  all_goals constructor
  all_goals simp only [claimedCount_new, idCount_new, claimedSquares_new, addedSum_new, ne_eq,
    reduceCtorEq, not_false_eq_true, true_implies]
  all_goals first
    | assumption
    | (rw [hlen]; rfl)
    | (rw [hlen]; intro j x hx; simp at hx)
    | (intro j x hx
       rcases getElem?_append_one hx with ⟨rfl, rfl⟩ | ⟨_, hold⟩
       · simp [newWorker, WPC.idx]
       · first
          | exact rd j x hold
          | exact sq j x hold)

theorem printedBy_set (l : List Worker) (i j : Nat) (w w1 : Worker) (h : l[i]? = some w) :
    printedBy (l.set i w1) j
      = if j = i then (if 6 ≤ w1.pc.idx then 1 else 0) else printedBy l j := by
  have hi : i < l.length := (List.getElem?_eq_some.1 h).1
  unfold printedBy
  by_cases hji : j = i
  · subst hji
    rw [List.getElem?_set_self hi]
    simp
  · rw [List.getElem?_set_ne (Ne.symm hji)]
    simp [hji]

theorem printedBy_new (l : List Worker) (j : Nat) :
    printedBy (l ++ [newWorker]) j = printedBy l j := by
  unfold printedBy
  rcases Nat.lt_trichotomy j l.length with hlt | heq | hgt
  · rw [List.getElem?_append_left hlt]
  · subst heq
    rw [List.getElem?_concat_length, List.getElem?_eq_none (Nat.le_refl _)]
    simp [newWorker, WPC.idx]
  · rw [List.getElem?_eq_none (by simp; omega), List.getElem?_eq_none (by omega)]

theorem out_stepMain (N : Nat) (s s1 : State) (hI : OutInv s)
    (h : main N s = some s1) : OutInv s1 := by
  obtain ⟨outW, outM, outT, outL⟩ := hI
  rcases stepMain_cases N s s1 h with ⟨hpc, rfl⟩ | ⟨hpc, rfl⟩ | ⟨hpc, rfl⟩ | ⟨i, hpc, hi, rfl⟩
    | ⟨i, hpc, hi, rfl⟩ | ⟨i, w, hpc, hi, hw, hd, rfl⟩ | ⟨i, hpc, hi, rfl⟩ | ⟨hpc, rfl⟩
    | ⟨hpc, rfl⟩ | ⟨hpc, rfl⟩ | ⟨hpc, rfl⟩
  all_goals clear h
  all_goals simp only [hpc, ne_eq, reduceCtorEq, not_false_eq_true,
    true_implies, not_true_eq_false, false_implies, or_self, or_true, true_or] at outM outT
  all_goals constructor
  all_goals simp only [printedBy_new, ne_eq, reduceCtorEq, not_false_eq_true, true_implies,
    not_true_eq_false, false_implies, or_self, or_true, true_or, implies_true]
  all_goals first
    | assumption
    | (intro e he j hj
       obtain ⟨x, hx, h6, hl⟩ := outL e he j hj
       exact ⟨x, by rw [List.getElem?_append_left (List.getElem?_eq_some.1 hx).1]; exact hx,
         h6, hl⟩)
    | (intro j
       rw [List.map_append, List.count_append, outW j]
       simp)
    | exact ⟨s.out, rfl, outM⟩
    | (intro e he j hj
       rcases List.mem_append.1 he with h1 | h1
       · exact outL e h1 j hj
       · simp only [List.mem_singleton] at h1
         subst h1
         simp at hj)

theorem outL_transfer (l : List Worker) (i j : Nat) (w w1 : Worker) (line : String)
    (hw : l[i]? = some w) (hkeep : 6 ≤ w.pc.idx → 6 ≤ w1.pc.idx ∧ w1.ID = w.ID)
    (h : ∃ x, l[j]? = some x ∧ 6 ≤ x.pc.idx ∧ line = squareLine x.ID (square x.ID)) :
    ∃ x, (l.set i w1)[j]? = some x ∧ 6 ≤ x.pc.idx ∧ line = squareLine x.ID (square x.ID) := by
  obtain ⟨x, hx, h6, hl⟩ := h
  have hi : i < l.length := (List.getElem?_eq_some.1 hw).1
  by_cases hji : j = i
  · subst hji
    rw [hw] at hx
    simp only [Option.some.injEq] at hx
    subst hx
    refine ⟨w1, List.getElem?_set_self hi, (hkeep h6).1, ?_⟩
    rw [(hkeep h6).2]
    exact hl
  · exact ⟨x, by rw [List.getElem?_set_ne (Ne.symm hji)]; exact hx, h6, hl⟩

theorem out_stepWorker (N : Nat) (s s1 : State) (i : Nat) (hS : ShapeInv N s) (hI : OutInv s)
    (h : work_on_tally s i = some s1) : OutInv s1 := by
  obtain ⟨outW, outM, outT, outL⟩ := hI
  obtain ⟨w, hw, hc⟩ := stepWorker_cases s s1 i h
  have hnd : w.pc ≠ .done := by
    rcases hc with hc | hc | hc | hc | hc | hc | hc | hc | hc | hc <;> simp [hc.1]
  have hrun : s.mainpc.running = true := by
    by_contra hr
    exact hnd (hS.idle (by simpa using hr) i w hw)
  have hpm : s.mainpc ≠ .L117 ∧ s.mainpc ≠ .exited := by
    constructor <;> intro hc2 <;> rw [hc2] at hrun <;> simp [MPC.running] at hrun
  have hM := outM hpm.1 hpm.2
  have hWi := outW i
  have hpb := fun j => printedBy_set s.threads i j w (advance s.next_ID w) hw
  have hpbi : printedBy s.threads i = if 6 ≤ w.pc.idx then 1 else 0 := by
    unfold printedBy
    rw [hw]
  clear hS outM outT
  rcases hc with ⟨hpc, hm, rfl⟩ | ⟨hpc, rfl⟩ | ⟨hpc, rfl⟩ | ⟨hpc, rfl⟩ | ⟨hpc, rfl⟩ | ⟨hpc, rfl⟩
      | ⟨hpc, hm, rfl⟩ | ⟨hpc, rfl⟩ | ⟨hpc, rfl⟩ | ⟨hpc, rfl⟩
  all_goals clear h
  all_goals simp only [advance, hpc, WPC.idx, Nat.reduceLeDiff, if_true, if_false] at hpb hpbi
  all_goals constructor
  all_goals first
    | (intro _ _; exact hM)
    | (intro _ _
       simp only [List.map_append, List.map_singleton, List.mem_append, List.mem_singleton,
         reduceCtorEq, or_false]
       exact hM)
    | (intro hc2; exact absurd hc2 (by simp [hpm.1, hpm.2]))
    | (intro j
       show List.count (Tid.worker j) (List.map Prod.fst s.out) = _
       rw [hpb j, outW j]
       by_cases hji : j = i
       · subst hji; rw [if_pos rfl, hpbi]
       · rw [if_neg hji])
    | (intro j
       rw [hpb j, List.map_append, List.count_append, outW j]
       by_cases hji : j = i
       · subst hji; rw [if_pos rfl, hpbi]; simp
       · rw [if_neg hji]
         have : Tid.worker i ≠ Tid.worker j := by
           intro hc3; injection hc3 with hc4; exact hji hc4.symm
         simp [List.count_singleton, this])
    | (intro e he j hj
       rcases List.mem_append.1 he with h1 | h1
       · exact outL_transfer s.threads i j w _ e.2 hw (by simp [hpc, WPC.idx]) (outL e h1 j hj)
       · simp only [List.mem_singleton] at h1
         subst h1
         simp only [Tid.worker.injEq] at hj
         subst hj
         exact ⟨_, List.getElem?_set_self (List.getElem?_eq_some.1 hw).1, by simp [WPC.idx], rfl⟩)
    | (intro e he j hj
       exact outL_transfer s.threads i j w _ e.2 hw (by simp [hpc, WPC.idx]) (outL e he j hj))

theorem log_stepMain (N : Nat) (s s1 : State) (hS : ShapeInv N s)
    (hI : s.mlog = mainLog N s.tally s.mainpc) (h : main N s = some s1) :
    s1.mlog = mainLog N s1.tally s1.mainpc := by
  have hbS := hS.boundS
  have hbJ := hS.boundJ
  clear hS
  rcases stepMain_cases N s s1 h with ⟨hpc, rfl⟩ | ⟨hpc, rfl⟩ | ⟨hpc, rfl⟩ | ⟨i, hpc, hi, rfl⟩
    | ⟨i, hpc, hi, rfl⟩ | ⟨i, w, hpc, hi, hw, hd, rfl⟩ | ⟨i, hpc, hi, rfl⟩ | ⟨hpc, rfl⟩
    | ⟨hpc, rfl⟩ | ⟨hpc, rfl⟩ | ⟨hpc, rfl⟩
  all_goals clear h
  all_goals rw [hpc] at hI
  all_goals simp only [hI, mainLog, logInit, List.range_succ, List.map_append, List.map_singleton,
    List.range_zero, List.map_nil, List.append_nil, List.append_assoc, List.nil_append,
    List.cons_append]
  all_goals first
    | rfl
    | (have hiN : i = N := by have := hbS i hpc; omega
       subst hiN; rfl)
    | (have hiN : i = N := by have := hbJ i hpc; omega
       subst hiN; rfl)

theorem log_stepWorker (N : Nat) (s s1 : State) (i : Nat) (hS : ShapeInv N s)
    (hI : s.mlog = mainLog N s.tally s.mainpc) (h : work_on_tally s i = some s1) :
    s1.mlog = mainLog N s1.tally s1.mainpc := by
  obtain ⟨w, hw, hc⟩ := stepWorker_cases s s1 i h
  have hnd : w.pc ≠ .done := by
    rcases hc with hc | hc | hc | hc | hc | hc | hc | hc | hc | hc <;> simp [hc.1]
  have hrun : s.mainpc.running = true := by
    by_contra hr
    exact hnd (hS.idle (by simpa using hr) i w hw)
  have hlog : ∀ t, mainLog N t s.mainpc = mainLog N s.tally s.mainpc := by
    intro t
    cases hpc : s.mainpc <;> rw [hpc] at hrun <;> simp [MPC.running] at hrun <;> rfl
  rcases hc with ⟨hpc, hm, rfl⟩ | ⟨hpc, rfl⟩ | ⟨hpc, rfl⟩ | ⟨hpc, rfl⟩ | ⟨hpc, rfl⟩ | ⟨hpc, rfl⟩
      | ⟨hpc, hm, rfl⟩ | ⟨hpc, rfl⟩ | ⟨hpc, rfl⟩ | ⟨hpc, rfl⟩
  all_goals first
    | exact hI
    | (show s.mlog = mainLog N _ s.mainpc
       rw [hlog]
       exact hI)

theorem inv_init (N : Nat) : ProgInv N init := by
  refine ⟨?_, ?_, ?_, ?_, rfl⟩
  · constructor <;> simp [init, created, MPC.running]
  · constructor <;> simp [init, MPC.running]
  · constructor <;> simp [init, claimedCount, idCount, claimedSquares, addedSum]
  · constructor <;> simp [init, printedBy]

theorem inv_step (N : Nat) (t : Tid) (s s1 : State) (hI : ProgInv N s)
    (h : step N t s = some s1) : ProgInv N s1 := by
  obtain ⟨hS, hL, hD, hO, hG⟩ := hI
  cases t with
  | main =>
    exact ⟨shape_stepMain N s s1 hS h, lock_stepMain N s s1 hS hL h,
      data_stepMain N s s1 hS hD h, out_stepMain N s s1 hO h, log_stepMain N s s1 hS hG h⟩
  | worker i =>
    exact ⟨shape_stepWorker N s s1 i hS h, lock_stepWorker s s1 i hL h,
      data_stepWorker N s s1 i hS hL hD h, out_stepWorker N s s1 i hS hO h,
      log_stepWorker N s s1 i hS hG h⟩

theorem inv_reachable (N : Nat) (s : State) (h : Reachable N s) : ProgInv N s := by
  induction h with
  | start => exact inv_init N
  | next t s s1 _ hstep ih => exact inv_step N t s s1 ih hstep

theorem reachable_of_run (N : Nat) (sched : List Tid) :
    ∀ (s s1 : State), Reachable N s → run N sched s = some s1 → Reachable N s1 := by
  induction sched with
  | nil =>
    intro s s1 hr h
    simp only [run, Option.some.injEq] at h
    subst h
    exact hr
  | cons t ts ih =>
    intro s s1 hr h
    simp only [run] at h
    cases hst : step N t s with
    | none => rw [hst] at h; simp at h
    | some s2 =>
      rw [hst] at h
      exact ih s2 s1 (Reachable.next t s s2 hr hst) h

theorem run_append (N : Nat) (a : List Tid) : ∀ (b : List Tid) (s : State),
    run N (a ++ b) s = (run N a s).bind (run N b) := by
  induction a with
  | nil => intro b s; rfl
  | cons t ts ih =>
    intro b s
    simp only [List.cons_append, run]
    cases step N t s with
    | none => rfl
    | some s2 => exact ih b s2

theorem run_of_reachable (N : Nat) (s : State) (h : Reachable N s) :
    ∃ sched, run N sched init = some s := by
  induction h with
  | start => exact ⟨[], rfl⟩
  | next t s s1 _ hstep ih =>
    obtain ⟨sched, hs⟩ := ih
    refine ⟨sched ++ [t], ?_⟩
    rw [run_append, hs]
    simp [run, hstep]

theorem workerSteps_new (l : List Worker) : workerSteps (l ++ [newWorker]) = workerSteps l + 10 := by
  simp [workerSteps, newWorker, WPC.idx]

theorem stepsLeft_step (N : Nat) (t : Tid) (s s1 : State) (h : step N t s = some s1) :
    stepsLeft N s1 + 1 = stepsLeft N s := by
  cases t with
  | main =>
    rcases stepMain_cases N s s1 h with ⟨hpc, rfl⟩ | ⟨hpc, rfl⟩ | ⟨hpc, rfl⟩ | ⟨i, hpc, hi, rfl⟩
      | ⟨i, hpc, hi, rfl⟩ | ⟨i, w, hpc, hi, hw, hd, rfl⟩ | ⟨i, hpc, hi, rfl⟩ | ⟨hpc, rfl⟩
      | ⟨hpc, rfl⟩ | ⟨hpc, rfl⟩ | ⟨hpc, rfl⟩
    all_goals simp only [stepsLeft, hpc, mainSteps, workerSteps_new]
    all_goals omega
  | worker i =>
    obtain ⟨w, hw, hc⟩ := stepWorker_cases s s1 i h
    have hws := workerSteps_set s.threads i w (advance s.next_ID w) hw
    rcases hc with ⟨hpc, hm, rfl⟩ | ⟨hpc, rfl⟩ | ⟨hpc, rfl⟩ | ⟨hpc, rfl⟩ | ⟨hpc, rfl⟩
      | ⟨hpc, rfl⟩ | ⟨hpc, hm, rfl⟩ | ⟨hpc, rfl⟩ | ⟨hpc, rfl⟩ | ⟨hpc, rfl⟩
    all_goals simp only [advance, hpc, WPC.idx] at hws
    all_goals simp only [stepsLeft]
    all_goals omega

theorem stepsLeft_run (N : Nat) (sched : List Tid) : ∀ (s s1 : State),
    run N sched s = some s1 → stepsLeft N s1 + sched.length = stepsLeft N s := by
  induction sched with
  | nil =>
    intro s s1 h
    simp only [run, Option.some.injEq] at h
    subst h
    rfl
  | cons t ts ih =>
    intro s s1 h
    simp only [run] at h
    cases hst : step N t s with
    | none => rw [hst] at h; simp at h
    | some s2 =>
      rw [hst] at h
      have h1 := ih s2 s1 h
      have h2 := stepsLeft_step N t s s2 hst
      simp only [List.length_cons]
      omega

theorem worker_progress (N : Nat) (s : State) (hI : ProgInv N s) (i : Nat) (w : Worker)
    (hw : s.threads[i]? = some w) (hnd : w.pc ≠ .done) :
    ∃ j s1, work_on_tally s j = some s1 := by
  obtain ⟨hS, hL, _, _, _⟩ := hI
  have hrun : s.mainpc.running = true := by
    by_contra hr
    exact hnd (hS.idle (by simpa using hr) i w hw)
  obtain ⟨hl1, hl2⟩ := hL.live hrun
  cases hpc : w.pc with
  | L36 =>
    cases hm : s.mID with
    | uninit => rw [hm] at hl1; simp [Mutex.live] at hl1
    | destroyed => rw [hm] at hl1; simp [Mutex.live] at hl1
    | free => exact ⟨i, _, by simp [work_on_tally, hw, hpc, hm]; rfl⟩
    | held j =>
      have hj := hL.holderID j hm
      obtain ⟨x, hx⟩ : ∃ x, s.threads[j]? = some x :=
        ⟨s.threads[j], List.getElem?_eq_getElem hj⟩
      have hcs := (hL.lockID j x hx).2 hm
      rcases hcs with h1 | h1 | h1
      · exact ⟨j, _, by simp [work_on_tally, hx, h1]; rfl⟩
      · exact ⟨j, _, by simp [work_on_tally, hx, h1]; rfl⟩
      · exact ⟨j, _, by simp [work_on_tally, hx, h1]; rfl⟩
  | L47 =>
    cases hm : s.mtally with
    | uninit => rw [hm] at hl2; simp [Mutex.live] at hl2
    | destroyed => rw [hm] at hl2; simp [Mutex.live] at hl2
    | free => exact ⟨i, _, by simp [work_on_tally, hw, hpc, hm]; rfl⟩
    | held j =>
      have hj := hL.holderT j hm
      obtain ⟨x, hx⟩ : ∃ x, s.threads[j]? = some x :=
        ⟨s.threads[j], List.getElem?_eq_getElem hj⟩
      have hcs := (hL.lockT j x hx).2 hm
      rcases hcs with h1 | h1
      · exact ⟨j, _, by simp [work_on_tally, hx, h1]; rfl⟩
      · exact ⟨j, _, by simp [work_on_tally, hx, h1]; rfl⟩
  | L37 => exact ⟨i, _, by simp [work_on_tally, hw, hpc]; rfl⟩
  | L38 => exact ⟨i, _, by simp [work_on_tally, hw, hpc]; rfl⟩
  | L40 => exact ⟨i, _, by simp [work_on_tally, hw, hpc]; rfl⟩
  | L42 => exact ⟨i, _, by simp [work_on_tally, hw, hpc]; rfl⟩
  | L43 => exact ⟨i, _, by simp [work_on_tally, hw, hpc]; rfl⟩
  | L50 => exact ⟨i, _, by simp [work_on_tally, hw, hpc]; rfl⟩
  | L53 => exact ⟨i, _, by simp [work_on_tally, hw, hpc]; rfl⟩
  | L56 => exact ⟨i, _, by simp [work_on_tally, hw, hpc]; rfl⟩
  | done => exact absurd hpc hnd

theorem progress (N : Nat) (s : State) (hI : ProgInv N s) (hne : s.mainpc ≠ .exited) :
    ∃ t s1, step N t s = some s1 := by
  cases hpc : s.mainpc with
  | L70 => exact ⟨.main, _, by simp [step, main, hpc]; rfl⟩
  | L72 => exact ⟨.main, _, by simp [step, main, hpc]; rfl⟩
  | L73 => exact ⟨.main, _, by simp [step, main, hpc]; rfl⟩
  | L112 => exact ⟨.main, _, by simp [step, main, hpc]; rfl⟩
  | L113 => exact ⟨.main, _, by simp [step, main, hpc]; rfl⟩
  | L116 => exact ⟨.main, _, by simp [step, main, hpc]; rfl⟩
  | L117 => exact ⟨.main, _, by simp [step, main, hpc]; rfl⟩
  | exited => exact absurd hpc hne
  | L86 i =>
    by_cases hi : i < N
    · exact ⟨.main, _, by simp [step, main, hpc, hi]; rfl⟩
    · exact ⟨.main, _, by simp [step, main, hpc, hi]; rfl⟩
  | L101 i =>
    by_cases hi : i < N
    · have hlen := hI.shape.len
      rw [hpc] at hlen
      simp only [created] at hlen
      have hlt : i < s.threads.length := by omega
      obtain ⟨x, hx⟩ : ∃ x, s.threads[i]? = some x :=
        ⟨s.threads[i], List.getElem?_eq_getElem hlt⟩
      by_cases hd : x.pc = .done
      · exact ⟨.main, _, by simp [step, main, hpc, hi, hx, hd]; rfl⟩
      · obtain ⟨j, s1, hj⟩ := worker_progress N s hI i x hx hd
        exact ⟨.worker j, s1, hj⟩
    · exact ⟨.main, _, by simp [step, main, hpc, hi]; rfl⟩

theorem exists_run_to_exit (N : Nat) : ∀ (n : Nat) (s : State), stepsLeft N s = n →
    Reachable N s → ∃ sched s1, run N sched s = some s1 ∧ s1.mainpc = .exited := by
  intro n
  induction n with
  | zero =>
    intro s hn hr
    by_cases he : s.mainpc = .exited
    · exact ⟨[], s, rfl, he⟩
    · obtain ⟨t, s1, hst⟩ := progress N s (inv_reachable N s hr) he
      have := stepsLeft_step N t s s1 hst
      omega
  | succ m ih =>
    intro s hn hr
    by_cases he : s.mainpc = .exited
    · exact ⟨[], s, rfl, he⟩
    · obtain ⟨t, s1, hst⟩ := progress N s (inv_reachable N s hr) he
      have hm := stepsLeft_step N t s s1 hst
      obtain ⟨sched, s2, hrun, hex⟩ := ih s1 (by omega) (Reachable.next t s s1 hr hst)
      exact ⟨t :: sched, s2, by simp [run, hst, hrun], hex⟩

theorem claimedCount_le (l : List Worker) : claimedCount l ≤ l.length := by
  unfold claimedCount
  induction l with
  | nil => simp
  | cons a l ih =>
    simp only [List.map_cons, List.sum_cons, List.length_cons]
    split <;> omega

theorem claimedCount_all (l : List Worker) (h : ∀ w ∈ l, 3 ≤ w.pc.idx) :
    claimedCount l = l.length := by
  unfold claimedCount
  induction l with
  | nil => simp
  | cons a l ih =>
    have h1 := ih (fun w hw => h w (List.mem_cons_of_mem a hw))
    have h2 := h a (List.mem_cons_self a l)
    simp only [List.map_cons, List.sum_cons, List.length_cons, h1, if_pos h2]
    omega

theorem idCount_all (v : Int) (l : List Worker) (h : ∀ w ∈ l, 3 ≤ w.pc.idx) :
    idCount v l = (l.map (fun w => w.ID)).count v := by
  unfold idCount
  induction l with
  | nil => simp
  | cons a l ih =>
    have h1 := ih (fun w hw => h w (List.mem_cons_of_mem a hw))
    have h2 := h a (List.mem_cons_self a l)
    simp only [List.map_cons, List.sum_cons, h1, List.count_cons, h2, true_and, beq_iff_eq]
    omega

theorem idCount_pos (v : Int) (l : List Worker) (i : Nat) (w : Worker) (hw : l[i]? = some w)
    (h3 : 3 ≤ w.pc.idx) (hv : w.ID = v) : 0 < idCount v l := by
  have h := idCount_set v l i w { w with pc := .L36 } hw
  have e1 : (if 3 ≤ w.pc.idx ∧ w.ID = v then 1 else 0) = 1 := if_pos ⟨h3, hv⟩
  have e2 : ¬ (3 ≤ ({ w with pc := WPC.L36 } : Worker).pc.idx
      ∧ ({ w with pc := WPC.L36 } : Worker).ID = v) := by simp [WPC.idx]
  rw [e1, if_neg e2] at h
  omega

theorem threads_le (N : Nat) (s : State) (hS : ShapeInv N s) : s.threads.length ≤ N := by
  have hlen := hS.len
  cases hpc : s.mainpc <;> rw [hpc] at hlen <;> simp only [created] at hlen <;>
    first
    | omega
    | exact le_of_eq_of_le hlen (hS.boundS _ hpc)

/-- A worker that has claimed holds the value the counter had, a value between
one and the number of claims made so far. -/
theorem claimed_id (N : Nat) (s : State) (hI : ProgInv N s) (i : Nat) (w : Worker)
    (hw : s.threads[i]? = some w) (h3 : 3 ≤ w.pc.idx) :
    ∃ j : Nat, 1 ≤ j ∧ j ≤ claimedCount s.threads ∧ w.ID = idOf j := by
  have hpos := idCount_pos w.ID s.threads i w hw h3 rfl
  rw [hI.data.ids w.ID, List.count_pos_iff] at hpos
  obtain ⟨j, hj, hjw⟩ := List.mem_map.1 hpos
  rw [List.mem_range'_1] at hj
  exact ⟨j, hj.1, by omega, hjw.symm⟩

theorem idOf_of_lt (j : Nat) (h : j < I31) : idOf j = (j : Int) := toInt32_of_lt j h

theorem sum_range_squares (n : Nat) (h : n * n < I31) :
    ((List.range' 1 n).map (fun j => square (idOf j))).sum = ((sumSquares n : Nat) : Int) := by
  induction n with
  | zero => simp [sumSquares]
  | succ k ih =>
    have hk : k * k < I31 := by nlinarith
    have hk1 : 1 + k < I31 := by nlinarith
    have hk2 : (1 + k) * (1 + k) < I31 := by rw [Nat.add_comm 1 k]; exact h
    rw [List.range'_1_concat, List.map_append, List.sum_append, ih hk, List.map_singleton,
      List.sum_singleton, idOf_of_lt _ hk1, square_of_nat _ hk2]
    simp only [sumSquares]
    push_cast
    ring

/-- While no square overflows, the sum of the squares of the claimed
identifiers is the sum of the squares of `1 .. claimedCount`. -/
theorem claimedSquares_eq (N : Nat) (s : State) (hI : ProgInv N s) (hN : N * N < I31) :
    claimedSquares s.threads = ((sumSquares (claimedCount s.threads) : Nat) : Int) := by
  have h1 := claimedCount_le s.threads
  have h2 := threads_le N s hI.shape
  rw [hI.data.csq]
  apply sum_range_squares
  have : claimedCount s.threads ≤ N := by omega
  calc claimedCount s.threads * claimedCount s.threads ≤ N * N := Nat.mul_le_mul this this
    _ < I31 := hN

theorem worker_square (N : Nat) (s : State) (hI : ProgInv N s) (hN : N * N < I31) (i : Nat)
    (w : Worker) (hw : s.threads[i]? = some w) (h3 : 3 ≤ w.pc.idx) :
    ∃ j : Nat, 1 ≤ j ∧ j ≤ N ∧ w.ID = (j : Int) ∧ square w.ID = ((j * j : Nat) : Int) := by
  obtain ⟨j, h1, h2, h4⟩ := claimed_id N s hI i w hw h3
  have h5 := claimedCount_le s.threads
  have h6 := threads_le N s hI.shape
  have hjN : j ≤ N := by omega
  have hjj : j * j < I31 := lt_of_le_of_lt (Nat.mul_le_mul hjN hjN) hN
  have hj : j < I31 := by nlinarith
  rw [idOf_of_lt j hj] at h4
  exact ⟨j, h1, hjN, h4, by rw [h4]; exact square_of_nat j hjj⟩

theorem addedSum_bounds (N : Nat) (s : State) (hI : ProgInv N s) (hN : N * N < I31) :
    0 ≤ addedSum s.threads ∧ addedSum s.threads ≤ claimedSquares s.threads := by
  unfold addedSum claimedSquares
  constructor
  · apply List.sum_nonneg
    intro z hz
    obtain ⟨w, hw, rfl⟩ := List.mem_map.1 hz
    obtain ⟨i, hi⟩ := List.getElem?_of_mem hw
    by_cases h8 : 8 ≤ w.pc.idx
    · obtain ⟨j, _, _, _, hsq⟩ := worker_square N s hI hN i w hi (by omega)
      simp only [h8, if_true]
      rw [hI.data.sq i w hi (by omega), hsq]
      positivity
    · simp [h8]
  · apply List.sum_le_sum
    intro w hw
    obtain ⟨i, hi⟩ := List.getElem?_of_mem hw
    by_cases h8 : 8 ≤ w.pc.idx
    · have h3 : 3 ≤ w.pc.idx := by omega
      simp only [h8, h3, if_true]
      rw [hI.data.sq i w hi (by omega)]
    · by_cases h3 : 3 ≤ w.pc.idx
      · obtain ⟨j, _, _, _, hsq⟩ := worker_square N s hI hN i w hi h3
        simp only [h8, h3, if_true, if_false]
        rw [hsq]
        positivity
      · simp [h8, h3]

/-- While nothing overflows, the tally is the sum of the squares added so far
and it is at most the sum of the squares of `1 .. N`. -/
theorem tally_exact (N : Nat) (s : State) (hI : ProgInv N s) (hN : N * N < I31)
    (hS : sumSquares N < U32) :
    (s.tally : Int) = addedSum s.threads ∧ s.tally ≤ sumSquares (claimedCount s.threads)
      ∧ sumSquares (claimedCount s.threads) ≤ sumSquares N := by
  obtain ⟨h0, h1⟩ := addedSum_bounds N s hI hN
  rw [claimedSquares_eq N s hI hN] at h1
  have h2 : claimedCount s.threads ≤ N := by
    have := claimedCount_le s.threads
    have := threads_le N s hI.shape
    omega
  have h3 := sumSquares_mono _ _ h2
  have h4 := hI.data.tal
  have h5 : (s.tally : Int) = addedSum s.threads := by
    rw [h4]
    apply Int.emod_eq_of_lt h0
    have : ((sumSquares N : Nat) : Int) < (U32 : Int) := by exact_mod_cast hS
    have : ((sumSquares (claimedCount s.threads) : Nat) : Int) ≤ ((sumSquares N : Nat) : Int) := by
      exact_mod_cast h3
    omega
  refine ⟨h5, ?_, h3⟩
  have : (s.tally : Int) ≤ ((sumSquares (claimedCount s.threads) : Nat) : Int) := by
    rw [h5]; exact h1
  exact_mod_cast this

theorem addedSum_all (N : Nat) (s : State) (hI : ProgInv N s)
    (hall : ∀ w ∈ s.threads, w.pc = .done) : addedSum s.threads = claimedSquares s.threads := by
  unfold addedSum claimedSquares
  congr 1
  apply List.map_congr_left
  intro w hw
  obtain ⟨i, hi⟩ := List.getElem?_of_mem hw
  have hd := hall w hw
  have hsq := hI.data.sq i w hi (by rw [hd]; simp [WPC.idx])
  simp [hd, WPC.idx, hsq]

/-- Once `main` has left the join loop, the tally is the sum of the squares of
`1 .. N`, as long as nothing overflows. -/
theorem final_tally (N : Nat) (s : State) (hI : ProgInv N s) (hN : N * N < I31)
    (hS : sumSquares N < U32) (hrun : s.mainpc.running = false)
    (hlen : s.threads.length = N) : s.tally = sumSquares N := by
  have hall : ∀ w ∈ s.threads, w.pc = .done := by
    intro w hw
    obtain ⟨i, hi⟩ := List.getElem?_of_mem hw
    exact hI.shape.idle hrun i w hi
  have hcc : claimedCount s.threads = N := by
    rw [claimedCount_all s.threads (fun w hw => by rw [hall w hw]; simp [WPC.idx]), hlen]
  have h1 := (tally_exact N s hI hN hS).1
  rw [addedSum_all N s hI hall, claimedSquares_eq N s hI hN, hcc] at h1
  exact_mod_cast h1

theorem late_shape (N : Nat) (s : State) (hI : ProgInv N s)
    (hpc : s.mainpc = .L112 ∨ s.mainpc = .L113 ∨ s.mainpc = .L116 ∨ s.mainpc = .L117
      ∨ s.mainpc = .exited) :
    s.mainpc.running = false ∧ s.threads.length = N ∧ ∀ w ∈ s.threads, w.pc = .done := by
  have hlen := hI.shape.len
  have hrun : s.mainpc.running = false := by
    rcases hpc with h | h | h | h | h <;> rw [h] <;> rfl
  refine ⟨hrun, ?_, ?_⟩
  · rcases hpc with h | h | h | h | h <;> rw [h] at hlen <;> exact hlen
  · intro w hw
    obtain ⟨i, hi⟩ := List.getElem?_of_mem hw
    exact hI.shape.idle hrun i w hi

theorem reachable_stateAfter (N : Nat) (sched : List Tid)
    (h : (run N sched init).isSome = true) : Reachable N (stateAfter N sched) := by
  cases hr : run N sched init with
  | none => rw [hr] at h; simp at h
  | some s =>
    have : stateAfter N sched = s := by simp [stateAfter, hr]
    rw [this]
    exact reachable_of_run N sched init s Reachable.start hr




theorem ids_perm (N : Nat) (s : State) (hI : ProgInv N s)
    (hall : ∀ w ∈ s.threads, 3 ≤ w.pc.idx) :
    (s.threads.map (fun w => w.ID)).Perm ((List.range' 1 s.threads.length).map idOf) := by
  rw [List.perm_iff_count]
  intro v
  rw [← idCount_all v s.threads hall, hI.data.ids v, claimedCount_all s.threads hall]

/-- Once `main` has destroyed a mutex it stays destroyed: at line 113 `mtally`
is destroyed, from line 116 on both mutexes are. -/
theorem destroyed_reachable (N : Nat) (s : State) (hr : Reachable N s) :
    ((s.mainpc = .L113 ∨ s.mainpc = .L116 ∨ s.mainpc = .L117 ∨ s.mainpc = .exited) →
      s.mtally = .destroyed)
    ∧ ((s.mainpc = .L116 ∨ s.mainpc = .L117 ∨ s.mainpc = .exited) → s.mID = .destroyed) := by
  induction hr with
  | start => simp [init]
  | next t s s1 hr0 hstep ih =>
    have hI := inv_reachable N s hr0
    cases t with
    | main =>
      rcases stepMain_cases N s s1 hstep with ⟨hpc, rfl⟩ | ⟨hpc, rfl⟩ | ⟨hpc, rfl⟩
        | ⟨i, hpc, hi, rfl⟩ | ⟨i, hpc, hi, rfl⟩ | ⟨i, w, hpc, hi, hw, hd, rfl⟩
        | ⟨i, hpc, hi, rfl⟩ | ⟨hpc, rfl⟩ | ⟨hpc, rfl⟩ | ⟨hpc, rfl⟩ | ⟨hpc, rfl⟩
      all_goals simp only [hpc, reduceCtorEq, or_self, false_implies, or_true, true_or,
        true_implies, or_false, false_or] at ih
      all_goals simp only [reduceCtorEq, or_self, false_implies, and_self, or_true, true_or,
        true_implies, or_false, false_or, implies_true, true_and, and_true]
      all_goals first
        | exact ih
        | exact ih.1
    | worker i =>
      obtain ⟨w, hw, hc⟩ := stepWorker_cases s s1 i hstep
      have hnd : w.pc ≠ .done := by
        rcases hc with hc | hc | hc | hc | hc | hc | hc | hc | hc | hc <;> simp [hc.1]
      have hrun : s.mainpc.running = true := by
        by_contra hr2
        exact hnd (hI.shape.idle (by simpa using hr2) i w hw)
      have hm : s1.mainpc = s.mainpc := by
        rcases hc with ⟨_, _, rfl⟩ | ⟨_, rfl⟩ | ⟨_, rfl⟩ | ⟨_, rfl⟩ | ⟨_, rfl⟩ | ⟨_, rfl⟩
          | ⟨_, _, rfl⟩ | ⟨_, rfl⟩ | ⟨_, rfl⟩ | ⟨_, rfl⟩ <;> rfl
      rw [hm]
      constructor
      · intro hc2
        rcases hc2 with h | h | h | h <;> rw [h] at hrun <;> simp [MPC.running] at hrun
      · intro hc2
        rcases hc2 with h | h | h <;> rw [h] at hrun <;> simp [MPC.running] at hrun

theorem stepMain_tally (N : Nat) (s s1 : State) (h : main N s = some s1) :
    s1.tally = s.tally := by
  rcases stepMain_cases N s s1 h with ⟨hpc, rfl⟩ | ⟨hpc, rfl⟩ | ⟨hpc, rfl⟩
    | ⟨i, hpc, hi, rfl⟩ | ⟨i, hpc, hi, rfl⟩ | ⟨i, w, hpc, hi, hw, hd, rfl⟩
    | ⟨i, hpc, hi, rfl⟩ | ⟨hpc, rfl⟩ | ⟨hpc, rfl⟩ | ⟨hpc, rfl⟩ | ⟨hpc, rfl⟩ <;> rfl

theorem at_L70 (N : Nat) (s : State) (hr : Reachable N s) (hpc : s.mainpc = .L70) :
    s.next_ID = 0 := by
  induction hr with
  | start => rfl
  | next t s s1 hr0 hstep _ =>
    have hI := inv_reachable N s hr0
    cases t with
    | main =>
      rcases stepMain_cases N s s1 hstep with ⟨_, rfl⟩ | ⟨_, rfl⟩ | ⟨_, rfl⟩
        | ⟨i, _, _, rfl⟩ | ⟨i, _, _, rfl⟩ | ⟨i, w, _, _, _, _, rfl⟩
        | ⟨i, _, _, rfl⟩ | ⟨_, rfl⟩ | ⟨_, rfl⟩ | ⟨_, rfl⟩ | ⟨_, rfl⟩ <;> simp at hpc
    | worker i =>
      exfalso
      obtain ⟨w, hw, hc⟩ := stepWorker_cases s s1 i hstep
      have hm : s1.mainpc = s.mainpc := by
        rcases hc with ⟨_, _, rfl⟩ | ⟨_, rfl⟩ | ⟨_, rfl⟩ | ⟨_, rfl⟩ | ⟨_, rfl⟩ | ⟨_, rfl⟩
          | ⟨_, _, rfl⟩ | ⟨_, rfl⟩ | ⟨_, rfl⟩ | ⟨_, rfl⟩ <;> rfl
      have hlen := hI.shape.len
      rw [← hm, hpc] at hlen
      have := (List.getElem?_eq_some.1 hw).1
      simp only [created] at hlen
      omega

theorem claimedCount_lt (l : List Worker) (i : Nat) (w : Worker) (hw : l[i]? = some w)
    (h3 : ¬ 3 ≤ w.pc.idx) : claimedCount l + 1 ≤ l.length := by
  have h := claimedCount_set l i w { w with pc := .L40 } hw
  have e1 : (if 3 ≤ ({ w with pc := WPC.L40 } : Worker).pc.idx then 1 else 0) = 1 := by
    simp [WPC.idx]
  rw [if_neg h3, e1] at h
  have h2 := claimedCount_le (l.set i { w with pc := .L40 })
  rw [List.length_set] at h2
  omega

/-- The counter never exceeds the number of workers plus one. -/
theorem counter_le (N : Nat) (s : State) (hr : Reachable N s) (hN : N + 1 < U32) :
    s.next_ID ≤ N + 1 ∧ (s.mainpc ≠ .L70 → s.next_ID = 1 + claimedCount s.threads) := by
  have hI := inv_reachable N s hr
  have h1 := claimedCount_le s.threads
  have h2 := threads_le N s hI.shape
  by_cases hpc : s.mainpc = .L70
  · rw [at_L70 N s hr hpc]
    exact ⟨by omega, fun h => absurd hpc h⟩
  · have h3 := hI.data.ctr hpc
    have h4 : (1 + claimedCount s.threads) % U32 = 1 + claimedCount s.threads :=
      Nat.mod_eq_of_lt (by omega)
    rw [h4] at h3
    exact ⟨by omega, fun _ => h3⟩

/-- What a terminated run has printed last, while no square overflows and the
sum of the squares fits the `unsigned int` tally: the total line of that sum. -/
theorem exit_total (N : Nat) (s : State) (hr : Reachable N s) (hN : N * N < I31)
    (hS : sumSquares N < U32) (hpc : s.mainpc = .exited) :
    s.tally = sumSquares N
    ∧ s.out.getLast? = some (Tid.main, totalLine (sumSquares N)) := by
  have hI := inv_reachable N s hr
  obtain ⟨hrun, hlen, _⟩ := late_shape N s hI (by simp [hpc])
  have ht := final_tally N s hI hN hS hrun hlen
  obtain ⟨ws, hws, _⟩ := hI.outp.outT (Or.inr hpc)
  refine ⟨ht, ?_⟩
  rw [hws, ht]
  simp

/-! # The claims -/

/-! ## C1: the total -/

/-- C1 (as amended).  For every `N ≥ 1` whose sum of squares is below `2^31`
(so that `%d` prints the `unsigned int` tally as the same number) and for every
interleaving, a run that has exited has the tally equal to
`1*1 + ... + N*N = N(N+1)(2N+1)/6`, and the last line of its output is the
total line of that value; the program can always run to that exit.  The value
is 1240 for `N = 15`, 1 for `N = 1`, 14 for `N = 3` and 338350 for `N = 100`. -/
theorem C1_total_tally (N : Nat) (s : State) (h1 : 1 ≤ N) (h31 : sumSquares N < I31)
    (hr : Reachable N s) :
    (s.mainpc = .exited →
      s.tally = sumSquares N
      ∧ toInt32 s.tally = ((sumSquares N : Nat) : Int)
      ∧ s.out.getLast? = some (Tid.main, totalLine (sumSquares N)))
    ∧ (∃ sched s1, run N sched s = some s1 ∧ s1.mainpc = .exited)
    ∧ sumSquares N = N * (N + 1) * (2 * N + 1) / 6
    ∧ sumSquares 15 = 1240 ∧ sumSquares 1 = 1 ∧ sumSquares 3 = 14 ∧ sumSquares 100 = 338350
    ∧ totalLine 1240 = "Total tally: 1240\n" := by
  have hNN : N * N < I31 := lt_of_le_of_lt (sq_le_sumSquares N N h1 (Nat.le_refl N)) h31
  have hS : sumSquares N < U32 := by unfold U32; unfold I31 at h31; omega
  refine ⟨?_, exists_run_to_exit N _ s rfl hr, sumSquares_closed N, by decide, by decide,
    by decide, ?_, by decide⟩
  · intro hpc
    obtain ⟨ht, hl⟩ := exit_total N s hr hNN hS hpc
    exact ⟨ht, by rw [ht]; exact toInt32_of_lt _ h31, hl⟩
  · have := six_mul_sumSquares 100
    omega

/-- Witness of C1: the sequential run of three workers ends with total 14. -/
theorem C1_total_tally_witness :
    ((stateAfter 3 (seqSchedule 3)).mainpc = .exited →
      (stateAfter 3 (seqSchedule 3)).tally = sumSquares 3
      ∧ toInt32 (stateAfter 3 (seqSchedule 3)).tally = ((sumSquares 3 : Nat) : Int)
      ∧ (stateAfter 3 (seqSchedule 3)).out.getLast?
          = some (Tid.main, totalLine (sumSquares 3)))
    ∧ (stateAfter 3 (seqSchedule 3)).mainpc = .exited
    ∧ totalLine (sumSquares 3) = "Total tally: 14\n" :=
  ⟨(C1_total_tally 3 (stateAfter 3 (seqSchedule 3)) (by decide) (by decide)
      (reachable_stateAfter _ _ (by decide))).1, by decide, by decide⟩

/-- C1 as stated fails: for `N = 1861` the sum of squares, 2150145431, fits in
32 bits, the program does run to its exit, and every run that exits has that
tally, yet the total line it prints is `Total tally: -2144821865`. -/
theorem C1_counterexample :
    1 ≤ 1861 ∧ sumSquares 1861 = 2150145431 ∧ sumSquares 1861 < U32
    ∧ (∃ s, Reachable 1861 s ∧ s.mainpc = .exited)
    ∧ (∀ s, Reachable 1861 s → s.mainpc = .exited →
        s.tally = 2150145431
        ∧ s.out.getLast? = some (Tid.main, "Total tally: -2144821865\n")
        ∧ toInt32 s.tally = -2144821865) := by
  have hsum : sumSquares 1861 = 2150145431 := by
    have := six_mul_sumSquares 1861
    omega
  refine ⟨by decide, hsum, by rw [hsum]; decide, ?_, ?_⟩
  · obtain ⟨sched, s1, hrun, hex⟩ := exists_run_to_exit 1861 _ init rfl Reachable.start
    exact ⟨s1, reachable_of_run 1861 sched init s1 Reachable.start hrun, hex⟩
  · intro s hr hpc
    obtain ⟨ht, hl⟩ := exit_total 1861 s hr (by decide) (by rw [hsum]; decide) hpc
    rw [hsum] at ht hl
    refine ⟨ht, ?_, ?_⟩
    · rw [hl]
      have : totalLine 2150145431 = "Total tally: -2144821865\n" := by decide
      rw [this]
    · rw [ht]
      decide

/-! ## C2: the identifiers -/

/-- C2.  For every `N` the program is defined for (`N < 2^31`: the loops of
`main` count workers in an `int`) and every interleaving, once all `N` workers
exist and have executed their claim step, the values of their locals `ID` are
a rearrangement of `1, 2, ..., N`: each identifier of `[1, N]` is held by
exactly one worker, none is duplicated, none is skipped, and no value outside
`[1, N]` is held. -/
theorem C2_identifiers (N : Nat) (s : State) (hN : N < I31) (hr : Reachable N s)
    (hlen : s.threads.length = N) (hall : ∀ w ∈ s.threads, 3 ≤ w.pc.idx) :
    (s.threads.map (fun w => w.ID)).Perm ((List.range' 1 N).map Int.ofNat)
    ∧ (s.threads.map (fun w => w.ID)).Nodup
    ∧ (∀ w ∈ s.threads, 1 ≤ w.ID ∧ w.ID ≤ (N : Int))
    ∧ (∀ k : Nat, 1 ≤ k → k ≤ N → (s.threads.map (fun w => w.ID)).count (k : Int) = 1) := by
  have hI := inv_reachable N s hr
  have hp := ids_perm N s hI hall
  rw [hlen] at hp
  have hmap : (List.range' 1 N).map idOf = (List.range' 1 N).map Int.ofNat := by
    apply List.map_congr_left
    intro j hj
    rw [List.mem_range'_1] at hj
    exact idOf_of_lt j (by omega)
  rw [hmap] at hp
  have hnd : ((List.range' 1 N).map Int.ofNat).Nodup :=
    (List.nodup_range' 1 N).map (fun a b hab => Int.ofNat.inj hab)
  refine ⟨hp, hp.nodup_iff.2 hnd, ?_, ?_⟩
  · intro w hw
    have hm : w.ID ∈ (List.range' 1 N).map Int.ofNat :=
      hp.subset (List.mem_map_of_mem _ hw)
    obtain ⟨j, hj, hjw⟩ := List.mem_map.1 hm
    rw [List.mem_range'_1] at hj
    rw [← hjw, Int.ofNat_eq_coe]
    constructor
    · exact_mod_cast hj.1
    · have : j ≤ N := by omega
      exact_mod_cast this
  · intro k hk1 hkN
    rw [hp.count_eq, List.count_eq_of_nodup hnd, if_pos]
    exact List.mem_map.2 ⟨k, List.mem_range'_1.2 ⟨hk1, by omega⟩, rfl⟩

/-- Witness of C2: three workers that have all claimed, none of which has gone
further. -/
theorem C2_identifiers_witness :
    ((stateAfter 3 [.main, .main, .main, .main, .main, .main, .worker 1, .worker 1,
        .worker 1, .worker 1, .worker 2, .worker 2, .worker 2, .worker 2, .worker 0,
        .worker 0, .worker 0, .worker 0]).threads.map (fun w => w.ID)).Perm
      ((List.range' 1 3).map Int.ofNat)
    ∧ (stateAfter 3 [.main, .main, .main, .main, .main, .main, .worker 1, .worker 1,
        .worker 1, .worker 1, .worker 2, .worker 2, .worker 2, .worker 2, .worker 0,
        .worker 0, .worker 0, .worker 0]).threads.map (fun w => w.ID) = [3, 1, 2] :=
  ⟨(C2_identifiers 3 (stateAfter 3 [.main, .main, .main, .main, .main, .main, .worker 1,
        .worker 1, .worker 1, .worker 1, .worker 2, .worker 2, .worker 2, .worker 2,
        .worker 0, .worker 0, .worker 0, .worker 0]) (by decide)
      (reachable_stateAfter _ _ (by decide)) (by decide) (by decide)).1, by decide⟩

/-! ## C3: the dispenser -/

/-- C3 (as amended).  The critical section under `mID` returns the counter
value it found and leaves the counter one larger without touching `tally`;
from a counter value `c`, `M` successive claims with `c + M ≤ 2^31` return
`c, c+1, ..., c+M-1` in that order, pairwise distinct, and leave the counter at
`c + M`; from main's initial value `1` the first claim returns `1`. -/
theorem C3_claim_sequence (c t M : Nat) (h : c + M ≤ I31) :
    (claimMany M ⟨t, c⟩).1 = (List.range' c M).map Int.ofNat
    ∧ (claimMany M ⟨t, c⟩).2 = ⟨t, c + M⟩
    ∧ ((claimMany M ⟨t, c⟩).1).Nodup
    ∧ (0 < M → claim ⟨t, c⟩ = ((c : Int), ⟨t, c + 1⟩))
    ∧ (claim ⟨t, 1⟩).1 = 1 := by
  have h1 := claimMany_exact M c t h
  refine ⟨by rw [h1], by rw [h1], ?_, ?_, ?_⟩
  · rw [h1]
    exact (List.nodup_range' c M).map (fun a b hab => Int.ofNat.inj hab)
  · intro hM
    have h2 := claimMany_exact 1 c t (by omega)
    simp only [claimMany, List.range'_one, List.map_cons, List.map_nil, Prod.mk.injEq,
      List.cons.injEq, and_true] at h2
    exact Prod.ext h2.1 h2.2
  · exact toInt32_of_lt 1 (by decide)

/-- Witness of C3: three claims from the counter value one. -/
theorem C3_claim_sequence_witness :
    (claimMany 3 ⟨0, 1⟩).1 = (List.range' 1 3).map Int.ofNat
    ∧ (claimMany 3 ⟨0, 1⟩).2 = ⟨0, 1 + 3⟩
    ∧ ((claimMany 3 ⟨0, 1⟩).1).Nodup
    ∧ (0 < 3 → claim ⟨0, 1⟩ = (((1 : Nat) : Int), ⟨0, 1 + 1⟩))
    ∧ (claim ⟨0, 1⟩).1 = 1 :=
  C3_claim_sequence 1 0 3 (by decide)

/-- C3 as stated fails: the counter value `2^31` is representable in the
`unsigned int` counter and so is `2^31 + 1`, yet the claim made at that value
returns `-2^31`, not the counter value it found. -/
theorem C3_counterexample :
    2147483648 + 1 < U32
    ∧ (claimMany 1 ⟨0, 2147483648⟩).2 = ⟨0, 2147483648 + 1⟩
    ∧ (claimMany 1 ⟨0, 2147483648⟩).1 = [-2147483648]
    ∧ (claimMany 1 ⟨0, 2147483648⟩).1 ≠ (List.range' 2147483648 1).map Int.ofNat := by
  decide

/-! ## C4: the aggregator -/

/-- C4.  The critical section under `mtally` adds its argument to `tally` and
leaves `next_ID` alone; for non-negative values whose sum is below `2^32`, the
adds applied from total zero in any permuted order leave the total equal to
the sum of the values. -/
theorem C4_add_order_independent (vs ws : List Int) (c : Nat) (hnn : ∀ v ∈ vs, 0 ≤ v)
    (hsum : vs.sum < (U32 : Int)) (hp : ws.Perm vs) :
    (((addMany ws ⟨0, c⟩).tally : Nat) : Int) = vs.sum
    ∧ (addMany ws ⟨0, c⟩).next_ID = c
    ∧ (addMany ws ⟨0, c⟩).tally = (addMany vs ⟨0, c⟩).tally
    ∧ (∀ (v : Int) (t : Nat), 0 ≤ v → (t : Int) + v < (U32 : Int) →
        (((add v ⟨t, c⟩).tally : Nat) : Int) = (t : Int) + v ∧ (add v ⟨t, c⟩).next_ID = c) := by
  have h0 : (0 : Nat) < U32 := by decide
  have hs0 : 0 ≤ vs.sum := List.sum_nonneg hnn
  have hw : (((addMany ws ⟨0, c⟩).tally : Nat) : Int) = vs.sum := by
    rw [addMany_tally_cast ws ⟨0, c⟩ h0, hp.sum_eq]
    simp only [Nat.cast_zero, zero_add]
    exact Int.emod_eq_of_lt hs0 hsum
  have hv : (((addMany vs ⟨0, c⟩).tally : Nat) : Int) = vs.sum := by
    rw [addMany_tally_cast vs ⟨0, c⟩ h0]
    simp only [Nat.cast_zero, zero_add]
    exact Int.emod_eq_of_lt hs0 hsum
  refine ⟨hw, addMany_next_ID ws _, ?_, ?_⟩
  · have : (((addMany ws ⟨0, c⟩).tally : Nat) : Int) = (((addMany vs ⟨0, c⟩).tally : Nat) : Int) := by
      rw [hw, hv]
    exact_mod_cast this
  · intro v t hv0 hlt
    exact ⟨addTally_exact t v hv0 hlt, rfl⟩

/-- Witness of C4: the squares `1, 4, 9` added in the order `9, 1, 4`. -/
theorem C4_add_order_independent_witness :
    (((addMany [9, 1, 4] ⟨0, 4⟩).tally : Nat) : Int) = ([1, 4, 9] : List Int).sum
    ∧ (addMany [9, 1, 4] ⟨0, 4⟩).next_ID = 4
    ∧ (addMany [9, 1, 4] ⟨0, 4⟩).tally = (addMany [1, 4, 9] ⟨0, 4⟩).tally
    ∧ (∀ (v : Int) (t : Nat), 0 ≤ v → (t : Int) + v < (U32 : Int) →
        (((add v ⟨t, 4⟩).tally : Nat) : Int) = (t : Int) + v ∧ (add v ⟨t, 4⟩).next_ID = 4) :=
  C4_add_order_independent [1, 4, 9] [9, 1, 4] 4 (by decide) (by decide) (by decide)

/-! ## C5: the line a worker prints -/

/-- C5 (as amended).  A worker about to print (line 43) holds
`squared = square(ID)` and emits the line `"%2d^2 = %2d\n"` rendered with
`(ID, square(ID))`; a worker about to add (line 50) has printed exactly that
line and adds the same value `squared` to the tally.  A `%2d` field is the
decimal rendering right-justified and padded with spaces to a minimum width of
two.  For the reference identifiers `1 .. 15` the square is exact, the
identifier field has two characters, and the square field has two characters
for `k ≤ 9` and three for `10 ≤ k ≤ 15`. -/
theorem C5_square_line (N : Nat) (s : State) (i : Nat) (w : Worker) (hr : Reachable N s)
    (hw : s.threads[i]? = some w) :
    (w.pc = .L43 → w.squared = square w.ID ∧
      ∃ s1, work_on_tally s i = some s1 ∧
        s1.out = s.out ++ [(Tid.worker i, squareLine w.ID w.squared)])
    ∧ (w.pc = .L50 → (Tid.worker i, squareLine w.ID w.squared) ∈ s.out ∧
      ∃ s1, work_on_tally s i = some s1 ∧ s1.tally = addTally s.tally w.squared)
    ∧ (∀ a b : Int, squareLine a b
        = String.mk (fmtD2 a ++ "^2 = ".toList ++ fmtD2 b ++ [Char.ofNat 10]))
    ∧ (∀ z : Int, fmtD2 z = List.replicate (2 - (fmtD z).length) (Char.ofNat 32) ++ fmtD z)
    ∧ (∀ k : Nat, 1 ≤ k → k ≤ 15 →
        square (k : Int) = ((k * k : Nat) : Int) ∧ (fmtD2 (k : Int)).length = 2
        ∧ (k ≤ 9 → (fmtD2 (square (k : Int))).length = 2)
        ∧ (10 ≤ k → (fmtD2 (square (k : Int))).length = 3))
    ∧ squareLine 1 (square 1) = " 1^2 =  1\n"
    ∧ squareLine 2 (square 2) = " 2^2 =  4\n"
    ∧ squareLine 3 (square 3) = " 3^2 =  9\n" := by
  have hI := inv_reachable N s hr
  refine ⟨?_, ?_, fun _ _ => rfl, fun _ => rfl, ?_, by decide, by decide, by decide⟩
  · intro hpc
    have hsq := hI.data.sq i w hw (by rw [hpc]; simp [WPC.idx])
    refine ⟨hsq, _, by simp [work_on_tally, hw, hpc]; rfl, ?_⟩
    simp [hsq]
  · intro hpc
    have hsq := hI.data.sq i w hw (by rw [hpc]; simp [WPC.idx])
    constructor
    · have hc := hI.outp.outW i
      have hp : printedBy s.threads i = 1 := by
        unfold printedBy
        rw [hw]
        simp [hpc, WPC.idx]
      rw [hp] at hc
      have hmem : Tid.worker i ∈ s.out.map Prod.fst := List.count_pos_iff.1 (by omega)
      obtain ⟨e, he, hei⟩ := List.mem_map.1 hmem
      obtain ⟨x, hx, _, hl⟩ := hI.outp.outL e he i hei
      rw [hw] at hx
      simp only [Option.some.injEq] at hx
      subst hx
      have : e = (Tid.worker i, squareLine w.ID w.squared) := by
        rw [hsq]
        exact Prod.ext hei hl
      rw [← this]
      exact he
    · exact ⟨_, by simp [work_on_tally, hw, hpc]; rfl, rfl⟩
  · intro k h1 h2
    interval_cases k <;> decide

/-- Witness of C5: worker 0 of a three-worker run, about to print. -/
theorem C5_square_line_witness :
    ((⟨.L43, 1, 1⟩ : Worker).pc = .L43 → (⟨.L43, 1, 1⟩ : Worker).squared = square 1 ∧
      ∃ s1, work_on_tally (stateAfter 3 [.main, .main, .main, .main, .worker 0, .worker 0,
          .worker 0, .worker 0, .worker 0]) 0 = some s1 ∧
        s1.out = (stateAfter 3 [.main, .main, .main, .main, .worker 0, .worker 0,
          .worker 0, .worker 0, .worker 0]).out ++ [(Tid.worker 0, squareLine 1 1)])
    ∧ squareLine 1 (square 1) = " 1^2 =  1\n" := by
  have h := C5_square_line 3 (stateAfter 3 [.main, .main, .main, .main, .worker 0, .worker 0,
    .worker 0, .worker 0, .worker 0]) 0 ⟨.L43, 1, 1⟩
    (reachable_stateAfter _ _ (by decide)) (by decide)
  exact ⟨h.1, h.2.2.2.2.2.1⟩

/-- C5 as stated fails: the tenth reference line has its square, `100`,
rendered in three characters, not in a field of width two. -/
theorem C5_counterexample :
    square 10 = 100
    ∧ fmtD2 (square 10) = "100".toList
    ∧ (fmtD2 (square 10)).length = 3
    ∧ squareLine 10 (square 10) = "10^2 = 100\n"
    ∧ ¬ (∀ k : Nat, 1 ≤ k → k ≤ 15 → (fmtD2 (square (k : Int))).length = 2) := by
  refine ⟨by decide, by decide, by decide, by decide, ?_⟩
  intro h
  exact absurd (h 10 (by decide) (by decide)) (by decide)

/-! ## C6: the output trace -/

/-- C7 (as amended).  The log of `main` is always the prefix of its program
that its program point determines; at exit it is: assign `next_ID = 1`,
initialise `mtally` and `mID`, create workers `0 .. N-1`, join workers
`0 .. N-1` in ascending order, destroy `mtally`, destroy `mID`, and only then
print the total line.  When `main` prints, both mutexes are already destroyed.
No step of `main` assigns `tally`: it is zero from program start and stays
zero while no worker exists. -/
theorem C7_main_order (N : Nat) (s : State) (hr : Reachable N s) :
    s.mlog = mainLog N s.tally s.mainpc
    ∧ (s.mainpc = .exited →
        s.mlog = [.assignNextID 1, .initTally, .initID] ++ (List.range N).map .create
          ++ (List.range N).map .join
          ++ [.destroyTally, .destroyID, .printTotal (totalLine s.tally), .ret])
    ∧ (s.mainpc = .L116 → s.mtally = .destroyed ∧ s.mID = .destroyed
        ∧ Tid.main ∉ s.out.map Prod.fst)
    ∧ (s.threads ≠ [] → s.mlog.take 3 = [.assignNextID 1, .initTally, .initID])
    ∧ (∀ s1, main N s = some s1 → s1.tally = s.tally)
    ∧ init.tally = 0
    ∧ (s.threads = [] → s.tally = 0) := by
  have hI := inv_reachable N s hr
  have hD := destroyed_reachable N s hr
  refine ⟨hI.log, ?_, ?_, ?_, fun s1 h => stepMain_tally N s s1 h, rfl, ?_⟩
  · intro hpc
    rw [hI.log, hpc]
    rfl
  · intro hpc
    exact ⟨hD.1 (by simp [hpc]), hD.2 (by simp [hpc]),
      hI.outp.outM (by simp [hpc]) (by simp [hpc])⟩
  · intro hne
    have hlen := hI.shape.len
    rw [hI.log]
    cases hpc : s.mainpc <;> rw [hpc] at hlen <;> simp only [created] at hlen <;>
      first
      | (exfalso; exact hne (List.length_eq_zero.1 hlen))
      | simp [mainLog, logInit]
  · intro hnil
    have h := hI.data.tal
    rw [hnil] at h
    simp only [addedSum, List.map_nil, List.sum_nil, Int.zero_emod] at h
    exact_mod_cast h

/-- Witness of C7: the sequential run of three workers. -/
theorem C7_main_order_witness :
    (stateAfter 3 (seqSchedule 3)).mlog
      = [.assignNextID 1, .initTally, .initID, .create 0, .create 1, .create 2, .join 0,
         .join 1, .join 2, .destroyTally, .destroyID, .printTotal "Total tally: 14\n", .ret]
    ∧ (stateAfter 3 (seqSchedule 3)).mlog
      = mainLog 3 (stateAfter 3 (seqSchedule 3)).tally (stateAfter 3 (seqSchedule 3)).mainpc :=
  ⟨by decide, (C7_main_order 3 (stateAfter 3 (seqSchedule 3))
      (reachable_stateAfter _ _ (by decide))).1⟩

/-- C7 as stated fails on the reference program (`NTHREADS = 15`): in its
sequential run the last four actions of `main` are destroy `mtally`, destroy
`mID`, print the total, return, so the total line is emitted after the two
mutexes are destroyed; at the state in which `main` is about to print, both
mutexes are destroyed and the total line is not yet written; and no step of
`main` assigns `tally`. -/
theorem C7_counterexample :
    (run 15 (seqSchedule 15) init).map (fun s => s.mlog.drop 33)
      = some [.destroyTally, .destroyID, .printTotal "Total tally: 1240\n", .ret]
    ∧ (run 15 ((seqSchedule 15).take 187) init).map
        (fun s => (s.mainpc, s.mtally, s.mID, s.out.length))
      = some (.L116, .destroyed, .destroyed, 15)
    ∧ (run 15 (seqSchedule 15) init).map (fun s => s.mlog.take 4)
      = some [.assignNextID 1, .initTally, .initID, .create 0]
    ∧ ∀ s s1 : State, main 15 s = some s1 → s1.tally = s.tally := by
  refine ⟨by decide, by decide, by decide, fun s s1 h => stepMain_tally 15 s s1 h⟩

/-! ## C8: deadlock freedom -/

/-- C8.  In every reachable state in which some worker has not returned, some
worker has an enabled step.  A state in which no thread has a step is the final
one: `main` has exited, all `N` workers have returned, and the total line is
written.  Once all workers have returned and until `main` destroys them, both
mutexes are free.  Every execution is finite, and from every reachable state
the program can run to its exit. -/
theorem C8_deadlock_free (N : Nat) (s : State) (hr : Reachable N s) :
    (∀ (i : Nat) (w : Worker), s.threads[i]? = some w → w.pc ≠ .done →
      ∃ j s1, work_on_tally s j = some s1)
    ∧ ((∀ t, step N t s = none) →
        s.mainpc = .exited ∧ s.threads.length = N ∧ (∀ w ∈ s.threads, w.pc = .done)
        ∧ ∃ ws, s.out = ws ++ [(Tid.main, totalLine s.tally)])
    ∧ (s.mainpc.running = true → (∀ w ∈ s.threads, w.pc = .done) →
        s.mID = .free ∧ s.mtally = .free)
    ∧ (∀ sched s1, run N sched s = some s1 → stepsLeft N s1 + sched.length = stepsLeft N s)
    ∧ (∃ sched s1, run N sched s = some s1 ∧ s1.mainpc = .exited
        ∧ ∀ t, step N t s1 = none) := by
  have hI := inv_reachable N s hr
  refine ⟨fun i w hw hnd => worker_progress N s hI i w hw hnd, ?_, ?_,
    fun sched s1 h => stepsLeft_run N sched s s1 h, ?_⟩
  · intro hstuck
    have hex : s.mainpc = .exited := by
      by_contra hne
      obtain ⟨t, s1, hst⟩ := progress N s hI hne
      rw [hstuck t] at hst
      simp at hst
    obtain ⟨_, hlen, hall⟩ := late_shape N s hI (by simp [hex])
    obtain ⟨ws, hws, _⟩ := hI.outp.outT (Or.inr hex)
    exact ⟨hex, hlen, hall, ws, hws⟩
  · intro hrun hall
    obtain ⟨h1, h2⟩ := hI.lock.live hrun
    constructor
    · cases hm : s.mID with
      | free => rfl
      | uninit => rw [hm] at h1; simp [Mutex.live] at h1
      | destroyed => rw [hm] at h1; simp [Mutex.live] at h1
      | held j =>
        have hj := hI.lock.holderID j hm
        have hx : s.threads[j]? = some s.threads[j] := List.getElem?_eq_getElem hj
        have hcs := (hI.lock.lockID j _ hx).2 hm
        rw [hall _ (List.getElem?_mem hx)] at hcs
        simp at hcs
    · cases hm : s.mtally with
      | free => rfl
      | uninit => rw [hm] at h2; simp [Mutex.live] at h2
      | destroyed => rw [hm] at h2; simp [Mutex.live] at h2
      | held j =>
        have hj := hI.lock.holderT j hm
        have hx : s.threads[j]? = some s.threads[j] := List.getElem?_eq_getElem hj
        have hcs := (hI.lock.lockT j _ hx).2 hm
        rw [hall _ (List.getElem?_mem hx)] at hcs
        simp at hcs
  · obtain ⟨sched, s1, hrun, hex⟩ := exists_run_to_exit N _ s rfl hr
    refine ⟨sched, s1, hrun, hex, ?_⟩
    have hI1 := inv_reachable N s1 (reachable_of_run N sched s s1 hr hrun)
    obtain ⟨_, _, hall⟩ := late_shape N s1 hI1 (by simp [hex])
    intro t
    cases t with
    | main => simp [step, main, hex]
    | worker i =>
      cases hst : step N (.worker i) s1 with
      | none => rfl
      | some s2 =>
        exfalso
        obtain ⟨w, hw, hc⟩ := stepWorker_cases s1 s2 i hst
        have hd := hall w (List.getElem?_mem hw)
        rcases hc with hc | hc | hc | hc | hc | hc | hc | hc | hc | hc <;>
          (rw [hd] at hc; simp at hc)

/-- Witness of C8: a two-worker run in which worker 0 holds `mID` and worker 1
waits for it. -/
theorem C8_deadlock_free_witness :
    work_on_tally (stateAfter 2 [.main, .main, .main, .main, .main, .worker 0]) 1 = none
    ∧ ((⟨.L36, 0, 0⟩ : Worker).pc ≠ .done →
        ∃ j s1, work_on_tally (stateAfter 2 [.main, .main, .main, .main, .main, .worker 0]) j
          = some s1) :=
  ⟨by decide,
   (C8_deadlock_free 2 (stateAfter 2 [.main, .main, .main, .main, .main, .worker 0])
      (reachable_stateAfter _ _ (by decide))).1 1 ⟨.L36, 0, 0⟩ (by decide)⟩

/-! ## C9: lock discipline -/

/-- C9.  In every reachable state worker `i` holds `mID` exactly while it is at
lines 37, 38 or 40 and holds `mtally` exactly while it is at lines 50 or 53; it
never holds both, holds none while printing or when it returns, and no other
worker is inside the same critical section.  A worker step that changes
`next_ID` is the step of line 38 taken while holding `mID`; one that changes
`tally` is the step of line 50 taken while holding `mtally`. -/
theorem C9_lock_discipline (N : Nat) (s : State) (i : Nat) (w : Worker) (hr : Reachable N s)
    (hw : s.threads[i]? = some w) :
    (s.mID = .held i ↔ (w.pc = .L37 ∨ w.pc = .L38 ∨ w.pc = .L40))
    ∧ (s.mtally = .held i ↔ (w.pc = .L50 ∨ w.pc = .L53))
    ∧ ¬ (s.mID = .held i ∧ s.mtally = .held i)
    ∧ ((w.pc = .L43 ∨ w.pc = .L56 ∨ w.pc = .done) → s.mID ≠ .held i ∧ s.mtally ≠ .held i)
    ∧ (∀ (j : Nat) (x : Worker), s.threads[j]? = some x → j ≠ i →
        ((w.pc = .L37 ∨ w.pc = .L38 ∨ w.pc = .L40) →
          ¬ (x.pc = .L37 ∨ x.pc = .L38 ∨ x.pc = .L40))
        ∧ ((w.pc = .L50 ∨ w.pc = .L53) → ¬ (x.pc = .L50 ∨ x.pc = .L53)))
    ∧ (∀ s1, work_on_tally s i = some s1 → s1.next_ID ≠ s.next_ID →
        w.pc = .L38 ∧ s.mID = .held i)
    ∧ (∀ s1, work_on_tally s i = some s1 → s1.tally ≠ s.tally →
        w.pc = .L50 ∧ s.mtally = .held i) := by
  have hI := inv_reachable N s hr
  have hA := hI.lock.lockID i w hw
  have hB := hI.lock.lockT i w hw
  refine ⟨hA.symm, hB.symm, ?_, ?_, ?_, ?_, ?_⟩
  · rintro ⟨h1, h2⟩
    have ha := hA.2 h1
    have hb := hB.2 h2
    rcases ha with ha | ha | ha <;> rcases hb with hb | hb <;> rw [ha] at hb <;> simp at hb
  · intro hpc
    constructor
    · intro h1
      have ha := hA.2 h1
      rcases hpc with h | h | h <;> rw [h] at ha <;> simp at ha
    · intro h2
      have hb := hB.2 h2
      rcases hpc with h | h | h <;> rw [h] at hb <;> simp at hb
  · intro j x hx hne
    constructor
    · intro hwcs hxcs
      have h1 := hA.1 hwcs
      have h2 := (hI.lock.lockID j x hx).1 hxcs
      rw [h1] at h2
      injection h2 with h3
      exact hne h3.symm
    · intro hwcs hxcs
      have h1 := hB.1 hwcs
      have h2 := (hI.lock.lockT j x hx).1 hxcs
      rw [h1] at h2
      injection h2 with h3
      exact hne h3.symm
  · intro s1 hst hne
    obtain ⟨w2, hw2, hc⟩ := stepWorker_cases s s1 i hst
    rw [hw] at hw2
    simp only [Option.some.injEq] at hw2
    subst hw2
    rcases hc with ⟨hpc, _, rfl⟩ | ⟨hpc, rfl⟩ | ⟨hpc, rfl⟩ | ⟨hpc, rfl⟩ | ⟨hpc, rfl⟩
      | ⟨hpc, rfl⟩ | ⟨hpc, _, rfl⟩ | ⟨hpc, rfl⟩ | ⟨hpc, rfl⟩ | ⟨hpc, rfl⟩
    all_goals first
      | exact absurd rfl hne
      | exact ⟨hpc, hA.1 (Or.inr (Or.inl hpc))⟩
  · intro s1 hst hne
    obtain ⟨w2, hw2, hc⟩ := stepWorker_cases s s1 i hst
    rw [hw] at hw2
    simp only [Option.some.injEq] at hw2
    subst hw2
    rcases hc with ⟨hpc, _, rfl⟩ | ⟨hpc, rfl⟩ | ⟨hpc, rfl⟩ | ⟨hpc, rfl⟩ | ⟨hpc, rfl⟩
      | ⟨hpc, rfl⟩ | ⟨hpc, _, rfl⟩ | ⟨hpc, rfl⟩ | ⟨hpc, rfl⟩ | ⟨hpc, rfl⟩
    all_goals first
      | exact absurd rfl hne
      | exact ⟨hpc, hB.1 (Or.inl hpc)⟩

/-- Witness of C9: worker 0 of a two-worker run, between its lock of `mID`
and its read of `next_ID`. -/
theorem C9_lock_discipline_witness :
    ((stateAfter 2 [.main, .main, .main, .main, .main, .worker 0]).mID = .held 0
      ↔ ((⟨.L37, 0, 0⟩ : Worker).pc = .L37 ∨ (⟨.L37, 0, 0⟩ : Worker).pc = .L38
        ∨ (⟨.L37, 0, 0⟩ : Worker).pc = .L40))
    ∧ (stateAfter 2 [.main, .main, .main, .main, .main, .worker 0]).mID = .held 0 :=
  ⟨(C9_lock_discipline 2 (stateAfter 2 [.main, .main, .main, .main, .main, .worker 0]) 0
      ⟨.L37, 0, 0⟩ (reachable_stateAfter _ _ (by decide)) (by decide)).1, by decide⟩

/-! ## C10: no overflow in the reference run -/

/-- C10.  In every reachable state of the reference program (`NTHREADS = 15`)
no operation overflows or wraps: the counter is at most 16 and its conversion
to `int` at line 37 is exact, every claimed identifier is between 1 and 15,
every product `ID*ID` is exact and at most 225, every value of the tally is at
most `1240 < 2^11`, the addition of line 50 does not wrap, and the value
printed with `%d` at line 116 is the non-negative number 1240. -/
theorem C10_no_overflow (s : State) (hr : Reachable NTHREADS s) :
    s.next_ID ≤ 16 ∧ s.tally ≤ 1240 ∧ 1240 < 2 ^ 11
    ∧ (∀ (i : Nat) (w : Worker), s.threads[i]? = some w →
        (3 ≤ w.pc.idx → ∃ k : Nat, 1 ≤ k ∧ k ≤ 15 ∧ w.ID = (k : Int)
          ∧ square w.ID = w.ID * w.ID ∧ w.ID * w.ID ≤ 225)
        ∧ (w.pc = .L37 → 1 ≤ s.next_ID ∧ s.next_ID ≤ 15
          ∧ readID s.next_ID = (s.next_ID : Int))
        ∧ (w.pc = .L38 → s.next_ID ≤ 15 ∧ incID s.next_ID = s.next_ID + 1)
        ∧ (w.pc = .L50 → 0 ≤ w.squared ∧ w.squared ≤ 225
          ∧ (s.tally : Int) + w.squared ≤ 1240
          ∧ ((addTally s.tally w.squared : Nat) : Int) = (s.tally : Int) + w.squared))
    ∧ (s.mainpc = .L116 → s.tally = 1240 ∧ toInt32 s.tally = 1240 ∧ 0 ≤ toInt32 s.tally
        ∧ totalLine s.tally = "Total tally: 1240\n") := by
  have hI := inv_reachable NTHREADS s hr
  have hNN : NTHREADS * NTHREADS < I31 := by decide
  have hSS : sumSquares NTHREADS < U32 := by decide
  have h15 : sumSquares NTHREADS = 1240 := by decide
  have hctr := counter_le NTHREADS s hr (by decide)
  have htal := tally_exact NTHREADS s hI hNN hSS
  have hne70 : ∀ (i : Nat) (w : Worker), s.threads[i]? = some w → s.mainpc ≠ .L70 := by
    intro i w hw h70
    have hlen := hI.shape.len
    rw [h70] at hlen
    have := (List.getElem?_eq_some.1 hw).1
    simp only [created] at hlen
    omega
  have hid : ∀ (i : Nat) (w : Worker), s.threads[i]? = some w → 3 ≤ w.pc.idx →
      ∃ k : Nat, 1 ≤ k ∧ k ≤ 15 ∧ w.ID = (k : Int)
        ∧ square w.ID = w.ID * w.ID ∧ w.ID * w.ID ≤ 225 := by
    intro i w hw h3
    obtain ⟨j, hj1, hj2, hj3, hj4⟩ := worker_square NTHREADS s hI hNN i w hw h3
    have hj15 : j ≤ 15 := hj2
    refine ⟨j, hj1, hj15, hj3, ?_, ?_⟩
    · rw [hj4, hj3]; push_cast; rfl
    · rw [hj3]
      have : j * j ≤ 15 * 15 := Nat.mul_le_mul hj15 hj15
      exact_mod_cast this
  refine ⟨hctr.1, by omega, by decide, ?_, ?_⟩
  · intro i w hw
    have hlen := threads_le NTHREADS s hI.shape
    have hlen15 : s.threads.length ≤ 15 := hlen
    refine ⟨hid i w hw, ?_, ?_, ?_⟩
    · intro hpc
      have hcc := claimedCount_lt s.threads i w hw (by rw [hpc]; simp [WPC.idx])
      have hn := hctr.2 (hne70 i w hw)
      refine ⟨by omega, by omega, ?_⟩
      exact toInt32_of_lt _ (by unfold I31; omega)
    · intro hpc
      have hcc := claimedCount_lt s.threads i w hw (by rw [hpc]; simp [WPC.idx])
      have hn := hctr.2 (hne70 i w hw)
      refine ⟨by omega, ?_⟩
      unfold incID U32
      omega
    · intro hpc
      obtain ⟨k, hk1, hk15, hk, hsq, h225⟩ := hid i w hw (by rw [hpc]; simp [WPC.idx])
      have hs := hI.data.sq i w hw (by rw [hpc]; simp [WPC.idx])
      have h0 : 0 ≤ w.squared := by rw [hs, hsq, hk]; positivity
      have hle : w.squared ≤ 225 := by rw [hs, hsq]; exact h225
      obtain ⟨s1, hst, hst2⟩ :
          ∃ s1, work_on_tally s i = some s1 ∧ s1.tally = addTally s.tally w.squared :=
        ⟨_, by simp [work_on_tally, hw, hpc]; rfl, rfl⟩
      have hI1 := inv_reachable NTHREADS s1 (Reachable.next (.worker i) s s1 hr hst)
      have htal1 := tally_exact NTHREADS s1 hI1 hNN hSS
      have hb : addTally s.tally w.squared ≤ 1240 := by
        have e1 := htal1.2.1
        have e2 := htal1.2.2
        rw [hst2] at e1
        omega
      have hc := addTally_cast s.tally w.squared
      have hex : ((addTally s.tally w.squared : Nat) : Int) = (s.tally : Int) + w.squared := by
        rw [hc]
        apply Int.emod_eq_of_lt (by omega)
        unfold U32
        omega
      exact ⟨h0, hle, by omega, hex⟩
  · intro hpc
    obtain ⟨hrun, hlen, _⟩ := late_shape NTHREADS s hI (by simp [hpc])
    have ht := final_tally NTHREADS s hI hNN hSS hrun hlen
    rw [h15] at ht
    rw [ht]
    exact ⟨rfl, by decide, by decide, by decide⟩

/-- Witness of C10: the sequential run of the reference program. -/
theorem C10_no_overflow_witness :
    (stateAfter NTHREADS (seqSchedule NTHREADS)).next_ID ≤ 16
    ∧ (stateAfter NTHREADS (seqSchedule NTHREADS)).tally ≤ 1240
    ∧ (stateAfter NTHREADS (seqSchedule NTHREADS)).tally = 1240 :=
  ⟨(C10_no_overflow (stateAfter NTHREADS (seqSchedule NTHREADS))
      (reachable_stateAfter _ _ (by decide))).1,
   (C10_no_overflow (stateAfter NTHREADS (seqSchedule NTHREADS))
      (reachable_stateAfter _ _ (by decide))).2.1, by decide⟩

end SimpleThreads
